import Mathlib

/-
Verification of the natural-language specification of merecat's HTTP core
(src/libhttpd.c) against the code, as a shallow embedding in Lean 4.

Strings are modelled as `List Char` (the C code works on NUL-terminated byte
strings; the NUL terminator itself is not represented, list end plays its
role).  Machine integers (`int`, `off_t`, `time_t`) are modelled as `Int`;
the quantities involved never approach overflow in the reachable states the
claims are about.  File-system and libc effects (`readlink`, `stat`,
`crypt`, `inet_aton`) are passed in as explicit environments or are given
small executable models noted in their doc comments.
-/

namespace Merecat

/-- Byte strings of the C code, NUL terminator elided. -/
abbrev Str := List Char

/-! ### C7: Accept / Accept-Encoding accumulation (httpd_parse_request, lines 2444-2470)

One step per occurrence of the header.  `acc` is the stored field so far,
`v` is the value of the new occurrence (after skipping spaces/tabs). -/

/-- Embedding of the `Accept:` branch (libhttpd.c:2444-2456): if the stored
field is non-empty and longer than 5000 bytes the new occurrence is logged
and discarded; otherwise `", "` and the new value are appended with
`strcat`. -/
def acceptStep (acc v : Str) : Str :=
  if acc ≠ [] then
    if acc.length > 5000 then acc
    else acc ++ (", ".toList) ++ v
  else v

/-- Embedding of the `Accept-Encoding:` branch (libhttpd.c:2457-2470): the
structure is the same as for `Accept:` (the code even appends `", "` with
`strcat` first), but the final copy of the new value is done with
`strcpy(hc->accepte, cp)`, which writes at offset 0 and therefore replaces
the whole stored field with the new value. -/
def accepteStep (acc v : Str) : Str :=
  if acc ≠ [] then
    if acc.length > 5000 then acc
    else v
  else v

/-- Stored `hc->accept` after a sequence of `Accept:` header occurrences
(field starts empty, httpd_init_conn_content line 2021). -/
def acceptAccum (vals : List Str) : Str := vals.foldl acceptStep []

/-- Stored `hc->accepte` after a sequence of `Accept-Encoding:` header
occurrences (field starts empty, httpd_init_conn_content line 2022). -/
def accepteAccum (vals : List Str) : Str := vals.foldl accepteStep []

/-! ### C8: defang (libhttpd.c, lines 841-901) -/

/-- The single-quote character, written by code point to keep apostrophes
out of the source text. -/
def squote : Char := Char.ofNat 39

/-- The replacement text the `switch` in `defang` writes for one input
character: the HTML entity for the six special characters, the character
itself otherwise. -/
def defangEntity (c : Char) : Str :=
  if c = '<' then ['&', 'l', 't', ';']
  else if c = '>' then ['&', 'g', 't', ';']
  else if c = '&' then ['&', 'a', 'm', 'p', ';']
  else if c = '"' then ['&', 'q', 'u', 'o', 't', ';']
  else if c = squote then ['&', '#', '3', '9', ';']
  else if c = '?' then ['&', '#', '6', '3', ';']
  else [c]

/-- The copy loop of `defang`: one iteration per input character, guarded by
`cp2 - dfstr < dfsize - 8` where `pos` is the current output offset
`cp2 - dfstr`.  Each iteration advances the output position by the length of
what it wrote (the `*cp2++ = ...` sequence plus the loop's own `++cp2`). -/
def defangGo : Str → Int → Int → Str
  | [], _, _ => []
  | c :: rest, pos, dfsize =>
    if pos < dfsize - 8 then
      defangEntity c ++ defangGo rest (pos + (defangEntity c).length) dfsize
    else []

/-- Embedding of `defang(str, dfstr, dfsize)`: the contents of `dfstr` after
the call (the final NUL is not represented). -/
def defang (str : Str) (dfsize : Int) : Str := defangGo str 0 dfsize

/-- After an ampersand, one of the six entity bodies `defang` emits must
follow. -/
def entTail (r : Str) : Bool :=
  ['l', 't', ';'].isPrefixOf r || ['g', 't', ';'].isPrefixOf r ||
  ['a', 'm', 'p', ';'].isPrefixOf r || ['q', 'u', 'o', 't', ';'].isPrefixOf r ||
  ['#', '3', '9', ';'].isPrefixOf r || ['#', '6', '3', ';'].isPrefixOf r

/-- Checks that every occurrence of a bare ampersand in the string starts
one of the six entity forms `defang` emits. -/
def ampOk : Str → Bool
  | [] => true
  | c :: r => (if c = '&' then entTail r else true) && ampOk r

/-! ### C3: send_mime range election and headers (libhttpd.c, lines 622-745)
together with the `last_byte_index` clamp of really_start_request
(lines 4233-4235). -/

/-- The connection fields `send_mime` reads.  `rangeIf` and `mtime` model
`hc->range_if` and `hc->sb.st_mtime`, with `-1` the code's "absent"
sentinel for `range_if`.  `fileAddress` is whether `hc->file_address` is
non-NULL, `compressionGzip` whether `hc->compression_type` is
`COMPRESSION_GZIP`.  `length` is the `off_t` argument of the call. -/
structure SendMimeIn where
  mimeFlag : Bool
  status : Int
  gotRange : Bool
  firstByteIndex : Int
  lastByteIndex : Int
  rangeIf : Int
  mtime : Int
  compressionGzip : Bool
  fileAddress : Bool
  maxAge : Int
  doKeepAlive : Bool
  length : Int
  deriving DecidableEq

/-- What `send_mime` leaves behind: the final `hc->status`, `hc->got_range`
and compression flag, and which of the headers it composed were present,
with their numeric contents. -/
structure SendMimeOut where
  status : Int
  gotRange : Bool
  compressionGzip : Bool
  partialContent : Bool
  contentRange : Option (Int × Int × Int)
  contentLength : Option Int
  cacheNoStore : Bool
  cacheMaxAge : Option Int
  etag : Bool
  keepAliveHeader : Bool
  deriving DecidableEq

/-- Embedding of `send_mime` (libhttpd.c:622-745).  `comp0` is the
compression flag after the `status != 200` reset at line 632; the
`partial_content` test is the condition at lines 642-645; the header
presence mirrors lines 663-743: `Content-Range` and `Content-Length` for a
partial response, `Content-Length` for known-length uncompressed content,
`Cache-Control: no-cache,no-store` for non-2xx/3xx, and the ETag string,
which is non-empty only when `hc->file_address` is set (line 707) and is
emitted only inside the `max_age >= 0` block (lines 720-722). -/
def send_mime (h : SendMimeIn) : SendMimeOut :=
  let comp0 := if h.status ≠ 200 then false else h.compressionGzip
  if h.mimeFlag then
    let partial_ : Bool :=
      decide (h.status = 200 ∧ h.gotRange = true ∧
        h.lastByteIndex ≥ h.firstByteIndex ∧
        (h.lastByteIndex ≠ h.length - 1 ∨ h.firstByteIndex ≠ 0) ∧
        (h.rangeIf = -1 ∨ h.rangeIf = h.mtime))
    let status1 : Int := if partial_ then 206 else h.status
    let comp1 := if partial_ then false else comp0
    let s100 : Int := status1 / 100
    { status := status1
      gotRange := if partial_ then h.gotRange else false
      compressionGzip := comp1
      partialContent := partial_
      contentRange :=
        if partial_ then some (h.firstByteIndex, h.lastByteIndex, h.length) else none
      contentLength :=
        if partial_ then some (h.lastByteIndex - h.firstByteIndex + 1)
        else if h.length ≥ 0 ∧ comp1 = false then some h.length
        else none
      cacheNoStore := decide (s100 ≠ 2 ∧ s100 ≠ 3)
      cacheMaxAge := if h.maxAge ≥ 0 then some h.maxAge else none
      etag := h.fileAddress && decide (h.maxAge ≥ 0)
      keepAliveHeader := h.doKeepAlive }
  else
    { status := h.status
      gotRange := h.gotRange
      compressionGzip := comp0
      partialContent := false
      contentRange := none
      contentLength := none
      cacheNoStore := false
      cacheMaxAge := none
      etag := false
      keepAliveHeader := false }

/-- Embedding of the clamp in really_start_request (lines 4233-4235):
`if (hc->got_range && (hc->last_byte_index == -1 || hc->last_byte_index >=
hc->sb.st_size)) hc->last_byte_index = hc->sb.st_size - 1;`. -/
def clamp_last_byte_index (gotRange : Bool) (last size : Int) : Int :=
  if gotRange = true ∧ (last = -1 ∨ last ≥ size) then size - 1 else last

/-! ### C10: the response-choosing tail of really_start_request
(libhttpd.c, lines 4233-4258). -/

/-- Which of the three response branches of the tail ran. -/
inductive Disposition where
  | headOnly
  | notModified
  | fullBody
  deriving DecidableEq

/-- Inputs of the tail of `really_start_request`: the parsed request fields
and `stat` data that reach line 4233.  `mapOk` is whether `mmc_map`
succeeds in the body branch. -/
structure TailIn where
  methodHead : Bool
  ifModifiedSince : Int
  mtime : Int
  size : Int
  gotRange : Bool
  firstByteIndex : Int
  lastByteIndex : Int
  rangeIf : Int
  compressionGzip : Bool
  maxAge : Int
  doKeepAlive : Bool
  mapOk : Bool
  deriving DecidableEq

/-- Embedding of really_start_request lines 4233-4258: clamp
`last_byte_index`, then choose HEAD (send_mime before any mapping), 304
(when `if_modified_since` is set and at least the mtime), or map the file
and send the full-content headers.  `hc->file_address` is NULL on entry —
it is reset by httpd_init_conn_content (line 2050) and the first assignment
in this request is the `mmc_map` at line 4248 — so the HEAD and 304 calls
pass `fileAddress := false`.  `mod_headers` (lines 3965-4024) is elided: it
only adjusts the compression decision, the `.gz` sibling substitution and
the `Vary` extra header, none of which feed the fields modelled in
`SendMimeOut` other than compression.  `none` is the `mmc_map` failure
path, which sends a 404/500 error page instead. -/
def request_tail (t : TailIn) : Option (Disposition × SendMimeOut) :=
  let last1 := clamp_last_byte_index t.gotRange t.lastByteIndex t.size
  let base : SendMimeIn :=
    { mimeFlag := true, status := 200, gotRange := t.gotRange,
      firstByteIndex := t.firstByteIndex, lastByteIndex := last1,
      rangeIf := t.rangeIf, mtime := t.mtime,
      compressionGzip := t.compressionGzip, fileAddress := false,
      maxAge := t.maxAge, doKeepAlive := t.doKeepAlive, length := t.size }
  if t.methodHead then some (.headOnly, send_mime base)
  else if t.ifModifiedSince ≠ -1 ∧ t.ifModifiedSince ≥ t.mtime then
    some (.notModified, send_mime { base with status := 304, length := -1 })
  else if t.mapOk then
    some (.fullBody, send_mime { base with fileAddress := true })
  else none

/-! ### C6: the auth/access gates' own-file refusal
(auth_check lines 1203-1260, access_check lines 1010-1067). -/

/-- Name of the per-directory password file.  Modelled from the spec:
`AUTH_FILE` is defined in a header that is not under src/; §4.6 and §6 give
the name `.htpasswd`. -/
def AUTH_FILE : Str := ".htpasswd".toList

/-- Name of the per-directory address-restriction file.  Modelled from the
spec: `ACCESS_FILE` is defined in a header that is not under src/; §4.6 and
§6 give the name `.htaccess`. -/
def ACCESS_FILE : Str := ".htaccess".toList

/-- External collaborators of the gates: `find_htfile` walks up the tree
looking for the control file, `check2` is `auth_check2`/`access_check2`
applied to the directory it is given, and `check2sent` is the status code
of the response page that call emits, if any. -/
structure HtGateEnv where
  findHtfile : Str → Str → Option Str
  check2 : Str → Int
  check2sent : Str → Option Int

/-- The `strrchr(tmp, '/')` dirname computation of the gates (lines
1031-1037 and 1224-1230): everything before the last slash, or `"."` when
there is no slash. -/
def dirnameOf (fn : Str) : Str :=
  if fn.any (fun c => c == '/') then
    ((fn.reverse.dropWhile (fun c => c ≠ '/')).reverse).dropLast
  else ".".toList

/-- Common shape of `auth_check` and `access_check` called with `dir ==
NULL` (as really_start_request does at lines 4170 and 4176): if the control
file's name occurs in `hc->expnfilename` (a `strstr` test), log and return
-1 without emitting any response; otherwise locate and consult the control
file, honouring `global_passwd` with its goto-local fallthrough.  The
result is the return code paired with the status of the response page
emitted on this path, if any. -/
def ht_gate (env : HtGateEnv) (globalPasswd vhost : Bool) (hostdir expnfilename file : Str) :
    Int × Option Int :=
  if file <:+: expnfilename then (-1, none)
  else
    let dir := dirnameOf expnfilename
    let topdir := if vhost = true ∧ hostdir ≠ [] then hostdir else ".".toList
    if globalPasswd = false then
      match env.findHtfile topdir dir with
      | some path => (env.check2 path, env.check2sent path)
      | none => (0, none)
    else
      let rc := env.check2 topdir
      if rc ≠ 0 then (rc, env.check2sent topdir)
      else
        match env.findHtfile topdir dir with
        | some path => (env.check2 path, env.check2sent path)
        | none => (0, none)

/-- `auth_check(hc, NULL)` (libhttpd.c:1203-1260). -/
def auth_check (env : HtGateEnv) (globalPasswd vhost : Bool) (hostdir expnfilename : Str) :
    Int × Option Int :=
  ht_gate env globalPasswd vhost hostdir expnfilename AUTH_FILE

/-- `access_check(hc, NULL)` (libhttpd.c:1010-1067). -/
def access_check (env : HtGateEnv) (globalPasswd vhost : Bool) (hostdir expnfilename : Str) :
    Int × Option Int :=
  ht_gate env globalPasswd vhost hostdir expnfilename ACCESS_FILE

/-! ### C5: the .htpasswd scan of auth_check2 (libhttpd.c, lines 1342-1396). -/

/-- `strchr`-style split at the first occurrence of `ch`: the part before
and the part after, or `none` when `ch` does not occur. -/
def splitFirst (ch : Char) : Str → Option (Str × Str)
  | [] => none
  | c :: r =>
    if c = ch then some ([], r)
    else (splitFirst ch r).map (fun p => (c :: p.1, p.2))

/-- Embedding of the file-scan loop of `auth_check2` (lines 1342-1396),
entered when the per-connection cache does not apply.  `cryptFn` models
libc `crypt(authpass, cryp)` (`none` = NULL result).  Lines are the file's
lines with the trailing newline already stripped.  A line without a colon
is skipped; on the first line whose user field equals `user` the function
returns 1 if the crypt comparison succeeds and -1 (after a 401 challenge)
otherwise; falling off the end is -1 (after a 401 challenge). -/
def auth_scan (cryptFn : Str → Str → Option Str) (user pass : Str) : List Str → Int
  | [] => -1
  | line :: rest =>
    match splitFirst ':' line with
    | none => auth_scan cryptFn user pass rest
    | some (u, cryp) =>
      if u = user then
        match cryptFn pass cryp with
        | none => -1
        | some r => if r = cryp then 1 else -1
      else auth_scan cryptFn user pass rest

/-- A toy crypt used to exhibit behaviour: returns the password text
itself, so an entry accepts exactly when its stored field equals the
presented password. -/
def cryptEcho (pass _salt : Str) : Option Str := some pass

/-- The claim's reading, written from the spec's words ("last-matching
entry wins within one file"): the last line whose user field matches
decides via the crypt comparison. -/
def auth_claimed_last (cryptFn : Str → Str → Option Str) (user pass : Str)
    (lines : List Str) : Int :=
  match lines.reverse.findSome?
      (fun line => (splitFirst ':' line).bind
        (fun p => if p.1 = user then some p.2 else none)) with
  | none => -1
  | some cryp =>
    match cryptFn pass cryp with
    | none => -1
    | some r => if r = cryp then 1 else -1

/-! ### C4: the .htaccess scan of access_check2 (libhttpd.c, lines 1104-1181). -/

/-- C `atol`: skip spaces and tabs, optional sign, then leading decimal
digits (0 when there are none). -/
def atolLoop : Str → Nat → Nat
  | [], acc => acc
  | c :: r, acc => if c.isDigit then atolLoop r (acc * 10 + (c.toNat - 48)) else acc

/-- C `atol` on a byte string. -/
def atol (s : Str) : Int :=
  let s1 := s.dropWhile (fun c => c == ' ' || c == '\t')
  match s1 with
  | '-' :: r => -(atolLoop r 0 : Int)
  | '+' :: r => (atolLoop r 0 : Int)
  | _ => (atolLoop s1 0 : Int)

/-- Splits a byte string on every occurrence of `ch`. -/
def splitOnChar (ch : Char) : Str → List Str
  | [] => [[]]
  | c :: r =>
    if c = ch then [] :: splitOnChar ch r
    else
      match splitOnChar ch r with
      | h :: t => (c :: h) :: t
      | [] => [[c]]

/-- Modelled from the C library: `inet_aton`, restricted to the
dotted-quad decimal form `a.b.c.d` with each part having at least one
digit and value at most 255 (the octal/hex and 1-to-3-part forms libc also
accepts are not modelled).  `uint32` registers are modelled by their
network-byte-order value (first octet most significant), i.e. a big-endian
host, on which `htonl` is the identity; the definitions below take `htonl`
as a parameter, so the equivalence theorem also covers hosts whose
register values are a byte permutation of these. -/
def aton4 (s : Str) : Option Nat :=
  match splitOnChar '.' s with
  | [a, b, c, d] =>
    if a ≠ [] ∧ b ≠ [] ∧ c ≠ [] ∧ d ≠ [] ∧
       (a ++ b ++ c ++ d).all (fun ch => ch.isDigit) ∧
       atolLoop a 0 ≤ 255 ∧ atolLoop b 0 ≤ 255 ∧ atolLoop c 0 ≤ 255 ∧ atolLoop d 0 ≤ 255 then
      some (atolLoop a 0 * 16777216 + atolLoop b 0 * 65536 + atolLoop c 0 * 256 + atolLoop d 0)
    else none
  | _ => none

/-- `htonl` on the big-endian host the registers are modelled after: the
identity. -/
def htonlBE : Nat → Nat := fun x => x

/-- The initializer of `ipv4_mask` (line 1072): all ones, set ONCE at
function scope — the mask then carries from line to line of the file. -/
def ACCESS_MASK_INIT : Nat := 2 ^ 32 - 1

/-- The mask-length loop of lines 1140-1141,
`for (l = 32 - l; l > 0; --l) ipv4_mask.s_addr ^= 1 << (l - 1);`:
XOR each of the low `k` bits into the CARRIED mask value (it does not
start from all ones). -/
def xorMaskLoop : Nat → Nat → Nat
  | mask, 0 => mask
  | mask, l + 1 => xorMaskLoop (mask ^^^ (1 <<< l)) l

/-- Evaluation of one `.htaccess` line (lines 1106-1150) against the mask
value carried in from the previous lines: the address token is everything
after the last space or tab (`none` when there is no whitespace — the
`goto err` at line 1116); an optional `/mask` suffix is either a mask
length `0..32` (no dot; `atol`, `goto err` outside the range), which XORs
the low `32 - l` bits into the carried mask and applies `htonl` (lines
1140-1142), or a dotted mask for `inet_aton`; a line with no `/` suffix
reuses the carried mask unchanged; finally the address itself must satisfy
`inet_aton`.  On success the triple is (address value, mask value — which
is also the mask carried to the next line, first character of the
line). -/
def parseAccessLine (aton : Str → Option Nat) (htonl : Nat → Nat) (mask0 : Nat)
    (line : Str) : Option (Nat × Nat × Char) :=
  if line.any (fun c => c == ' ' || c == '\t') = false then none
  else
    let addr := (line.reverse.takeWhile (fun c => ¬(c == ' ' || c == '\t'))).reverse
    let (addrPart, maskOpt) :=
      match splitFirst '/' addr with
      | some (a, m) => (a, some m)
      | none => (addr, none)
    let maskVal? : Option Nat :=
      match maskOpt with
      | none => some mask0
      | some m =>
        if m = [] then none
        else if ('.' ∈ m) = false then
          let l := atol m
          if l < 0 ∨ l > 32 then none
          else some (htonl (xorMaskLoop mask0 (32 - l.toNat)))
        else aton m
    match maskVal? with
    | none => none
    | some maskVal =>
      match aton addrPart with
      | none => none
      | some addrVal => some (addrVal, maskVal, line.headD ' ')

/-- Outcome of the `.htaccess` scan: `denied` stands for the paths that
emit a 403 page and return -1 (malformed line, or falling off the end),
`allowed` for the `return 1` of a matching allow line. -/
inductive AccessOutcome where
  | allowed
  | denied
  deriving DecidableEq

/-- Embedding of the scan loop of `access_check2` (lines 1104-1181), with
the `ipv4_mask` state threaded through: `mask0` is the mask left behind by
the lines already scanned (`ACCESS_MASK_INIT` at the top call).  Lines in
order; a malformed line is a 403; on a line whose masked address equals
the masked client address, a leading 'd'/'D' falls through to the next
line (the `break` out of the `switch`), a leading 'a'/'A' accepts, and any
other leading character is the `goto err` 403; a non-matching line is
skipped; either way the line's mask value carries on; falling off the end
is a 403. -/
def access_check2 (aton : Str → Option Nat) (htonl : Nat → Nat) (client : Nat) :
    Nat → List Str → AccessOutcome
  | _, [] => .denied
  | mask0, line :: rest =>
    match parseAccessLine aton htonl mask0 line with
    | none => .denied
    | some (addrVal, maskVal, c0) =>
      if client &&& maskVal = addrVal &&& maskVal then
        if c0 = 'd' ∨ c0 = 'D' then access_check2 aton htonl client maskVal rest
        else if c0 = 'a' ∨ c0 = 'A' then .allowed
        else .denied
      else access_check2 aton htonl client maskVal rest

/-- Decision contributed by a single line under the carried mask `mask0`:
`none` means the scan moves on (no match, or a matching deny line); the
second component is the mask the line leaves behind (unchanged on a
malformed line, whose 403 ends the scan anyway). -/
def accessLineDecision (aton : Str → Option Nat) (htonl : Nat → Nat) (client : Nat)
    (mask0 : Nat) (line : Str) : Option AccessOutcome × Nat :=
  match parseAccessLine aton htonl mask0 line with
  | none => (some .denied, mask0)
  | some (addrVal, maskVal, c0) =>
    ((if client &&& maskVal = addrVal &&& maskVal then
        if c0 = 'd' ∨ c0 = 'D' then none
        else if c0 = 'a' ∨ c0 = 'A' then some .allowed
        else some .denied
      else none), maskVal)

/-- Declarative reading of the scan: lines are evaluated in order under
the carried mask, and the first line contributing a decision decides; if
none does, the request is denied. -/
def access_first_decisive (aton : Str → Option Nat) (htonl : Nat → Nat) (client : Nat) :
    Nat → List Str → AccessOutcome
  | _, [] => .denied
  | mask0, line :: rest =>
    match accessLineDecision aton htonl client mask0 line with
    | (some o, _) => o
    | (none, mask1) => access_first_decisive aton htonl client mask1 rest

/-- The claim's reading, written from the claim's words: the first line
whose address and mask match the client decides — 'd'/'D' denies, 'a'/'A'
allows — a malformed line denies, and no match denies.  The claim says
nothing of mask state, so each line is read on its own, with a fresh
all-ones mask. -/
def access_claimed (aton : Str → Option Nat) (client : Nat) : List Str → AccessOutcome
  | [] => .denied
  | line :: rest =>
    match parseAccessLine aton htonlBE ACCESS_MASK_INIT line with
    | none => .denied
    | some (addrVal, maskVal, c0) =>
      if client &&& maskVal = addrVal &&& maskVal then
        if c0 = 'd' ∨ c0 = 'D' then .denied
        else if c0 = 'a' ∨ c0 = 'A' then .allowed
        else .denied
      else access_claimed aton client rest

/-! ### C2: de_dotdot (libhttpd.c, lines 2752-2798)

Each `while` loop of the C function is rendered as a step function plus a
fuel-driven loop; every step strictly shortens the string, so fuel equal to
the input length always suffices (proved below), and the fuel-based
definitions evaluate by `decide` on concrete inputs. -/

/-- One round of the first loop (lines 2759-2764): find the first `"//"`
(`strstr`), skip the whole run of slashes after it (`cp2`), and close the
gap keeping a single slash. -/
def collapseOnce : Str → Str
  | [] => []
  | c :: rest =>
    if c = '/' then
      match rest with
      | c2 :: rest2 =>
        if c2 = '/' then c :: rest2.dropWhile (fun x => x == '/')
        else c :: collapseOnce rest
      | [] => [c]
    else c :: collapseOnce rest

/-- The `while (strstr(file, "//"))` loop. -/
def collapseLoop : Nat → Str → Str
  | 0, l => l
  | n + 1, l => if ['/', '/'] <:+: l then collapseLoop n (collapseOnce l) else l

/-- Step (a) of de_dotdot: collapse every multiple-slash run. -/
def collapseSlashes (l : Str) : Str := collapseLoop l.length l

/-- Step (b) (lines 2767-2768): strip one leading slash. -/
def stripLeadSlash (l : Str) : Str :=
  match l with
  | c :: r => if c = '/' then r else l
  | [] => []

/-- First half of step (c) (lines 2771-2772): strip leading `"./"`
repeatedly. -/
def dropLeadDotSlash (l : Str) : Str :=
  match l with
  | c1 :: c2 :: r => if c1 = '.' ∧ c2 = '/' then dropLeadDotSlash r else l
  | _ => l

/-- One round of the second half of step (c) (lines 2773-2774): the first
`"/./"` loses its `"/."`. -/
def dotSegOnce : Str → Str
  | [] => []
  | c :: rest =>
    if c = '/' then
      match rest with
      | c2 :: c3 :: rest3 =>
        if c2 = '.' ∧ c3 = '/' then c :: rest3
        else c :: dotSegOnce rest
      | _ => c :: dotSegOnce rest
    else c :: dotSegOnce rest

/-- The `while (strstr(file, "/./"))` loop. -/
def dotSegLoop : Nat → Str → Str
  | 0, l => l
  | n + 1, l => if ['/', '.', '/'] <:+: l then dotSegLoop n (dotSegOnce l) else l

/-- Step (c), second half: remove every `"/./"`. -/
def removeDotSegs (l : Str) : Str := dotSegLoop l.length l

/-- Head of step (d) (lines 2778-2779): strip leading `"../"` repeatedly. -/
def dropLeadDotDotSlash (l : Str) : Str :=
  match l with
  | c1 :: c2 :: c3 :: r =>
    if c1 = '.' ∧ c2 = '.' ∧ c3 = '/' then dropLeadDotDotSlash r else l
  | _ => l

/-- `strstr(file, "/../")` (line 2780): splits at the first occurrence,
returning the part before and the part after, or `none`. -/
def breakDotDot : Str → Option (Str × Str)
  | [] => none
  | c :: rest =>
    if ['/', '.', '.', '/'] <+: (c :: rest) then some ([], (c :: rest).drop 4)
    else (breakDotDot rest).map (fun p => (c :: p.1, p.2))

/-- The backward scan `for (cp2 = cp - 1; cp2 >= file && *cp2 != '/';
--cp2)` followed by keeping everything up to and including the slash found
(the copy target is `cp2 + 1`): the prefix of `a` ending at its last
slash, or `[]` when `a` has no slash. -/
def lastSlashKeep (a : Str) : Str :=
  (a.reverse.dropWhile (fun c => !(c == '/'))).reverse

/-- The `for (;;)` loop of step (d) (lines 2777-2788): strip leading
`"../"`, then either stop (no `"/../"` left) or collapse the first
`xxx/../` and go round again. -/
def ddLoop : Nat → Str → Str
  | 0, l => l
  | n + 1, l =>
    match breakDotDot (dropLeadDotDotSlash l) with
    | none => dropLeadDotDotSlash l
    | some (a, b) => ddLoop n (lastSlashKeep a ++ b)

/-- Step (d) of de_dotdot. -/
def deDotDotLoop (l : Str) : Str := ddLoop l.length l

/-- The trailing-`"/.."` trimmer, step (e) (lines 2791-2797): while the
string is longer than 3 and ends in `"/.."`, look for a slash before that
suffix; none ends the loop, otherwise truncate just before it. -/
def trimLoop : Nat → Str → Str
  | 0, l => l
  | n + 1, l =>
    if l.length > 3 ∧ ['/', '.', '.'] <:+ l then
      if (l.take (l.length - 3)).any (fun c => c == '/') then
        trimLoop n ((lastSlashKeep (l.take (l.length - 3))).dropLast)
      else l
    else l

/-- Step (e) of de_dotdot. -/
def trimTrailDotDot (l : Str) : Str := trimLoop l.length l

/-- Embedding of `de_dotdot` (libhttpd.c:2752-2798): the five steps in the
order the C function performs them. -/
def de_dotdot (l : Str) : Str :=
  trimTrailDotDot (deDotDotLoop (removeDotSegs (dropLeadDotSlash (stripLeadSlash (collapseSlashes l)))))

/-! ### C1: expand_symlinks (libhttpd.c, lines 1705-1902)

The loop is embedded with explicit state (the accumulated `checked`, the
remaining `rest` from the cursor `r` on, and `nlinks`) and fuel; the
file system is an explicit environment giving each path's `readlink`
outcome and whether it stats. -/

/-- Outcome of `readlink(checked, ...)` as the code distinguishes them:
success with a target, `EINVAL` (not a symlink), the
`EACCES`/`ENOENT`/`ENOTDIR` errors that end the walk with a trailer, and
any other error (fatal, the function returns NULL). -/
inductive ReadlinkRes where
  | target (t : Str)
  | notLink
  | missing
  | fatal
  deriving DecidableEq

/-- The file-system environment `expand_symlinks` consults. -/
structure SymlinkEnv where
  readlink : Str → ReadlinkRes
  statOk : Str → Bool

/-- The `..` pop (lines 1787-1797 and 1810-1821): find the last slash of
`checked` with `strrchr`; none resets `checked` to empty, a slash at the
very start keeps just `"/"` (`cp2 == checked`), otherwise `checked` is cut
just before the slash. -/
def popDotDot (checked : Str) : Str :=
  if checked = [] then []
  else
    let p := lastSlashKeep checked
    if p = [] then []
    else if p.length = 1 then p
    else p.dropLast

/-- Transfer of one component onto `checked` (lines 1798-1804 and
1822-1828): a separating slash is added when `checked` is non-empty and
does not already end in one. -/
def appendComp (checked comp : Str) : Str :=
  if checked ≠ [] ∧ checked.getLast? ≠ some '/' then checked ++ ['/'] ++ comp
  else checked ++ comp

/-- The `while (restlen > 0)` loop of expand_symlinks (lines 1771-1895).
One iteration: split the next component off `rest` (`strchr(r, '/')`);
`i == 0` appends a literal slash (the absolute-path special case), `".."`
pops, anything else is appended; an empty `checked` skips the readlink
(line 1834); otherwise the readlink outcome either continues, ends the
walk with the previous `checked` and the unconsumed part as trailer,
fails fatally, or splices the link target in front of the remaining rest
(absolute targets reset `checked`, line 1886; relative ones restore the
pre-component `checked`, line 1892).  Fuel exhaustion gives `none`; every
actual run of the C loop is finite, and the theorems hold for every fuel. -/
def expand_loop (env : SymlinkEnv) (maxLinks : Nat) :
    Nat → Str → Str → Nat → Option (Str × Str)
  | 0, _, _, _ => none
  | fuel + 1, checked, rest, nlinks =>
    if rest = [] then some ((if checked = [] then ['.'] else checked), [])
    else
      let comp := rest.takeWhile (fun c => !(c == '/'))
      let hasSlash := comp.length < rest.length
      let checked' :=
        if hasSlash ∧ comp = [] then checked ++ ['/']
        else if comp = ['.', '.'] then popDotDot checked
        else appendComp checked comp
      let r' := if hasSlash then rest.drop (comp.length + 1) else []
      if checked' = [] then expand_loop env maxLinks fuel checked' r' nlinks
      else
        match env.readlink checked' with
        | .notLink => expand_loop env maxLinks fuel checked' r' nlinks
        | .missing => some ((if checked = [] then ['.'] else checked), rest)
        | .fatal => none
        | .target t =>
          if maxLinks < nlinks + 1 then none
          else
            let t1 := if t.getLast? = some '/' then t.dropLast else t
            let rest' := if r' ≠ [] then t1 ++ ['/'] ++ r' else t1
            let checked2 := if rest'.head? = some '/' then [] else checked
            expand_loop env maxLinks fuel checked2 rest' (nlinks + 1)

/-- The trailing-slash trim of the `no_symlink_check` short-circuit
(lines 1738-1742). -/
def trimTrailSlashes (l : Str) : Str :=
  (l.reverse.dropWhile (fun c => c == '/')).reverse

/-- Embedding of `expand_symlinks(path, trailer, no_symlink_check,
tildemapped)`: the `no_symlink_check` short-circuit when the whole path
stats (lines 1718-1750), otherwise leading slashes are stripped unless
tilde-mapped (lines 1759-1766) and the walk starts with empty `checked`.
The result is `(checked, trailer)`, `none` for the NULL returns. -/
def expand_symlinks (env : SymlinkEnv) (maxLinks fuel : Nat) (path : Str)
    (no_symlink_check tildemapped : Bool) : Option (Str × Str) :=
  if no_symlink_check = true ∧ env.statOk path = true then
    some (trimTrailSlashes path, [])
  else
    let rest0 := if tildemapped = false then path.dropWhile (fun c => c == '/') else path
    expand_loop env maxLinks fuel [] rest0 0

/-- Depth evolution of filesystem canonicalization over a component list:
`..` pops one level and escapes the root when there is nothing to pop,
`.` and empty components are no-ops, anything else descends. -/
def escapeFold : List Str → Int → Bool
  | [], _ => false
  | c :: rest, depth =>
    if c = ['.', '.'] then
      if depth ≤ 0 then true else escapeFold rest (depth - 1)
    else if c = ['.'] ∨ c = [] then escapeFold rest depth
    else escapeFold rest (depth + 1)

/-- A path's filesystem-canonical form lies outside the directory the
path is relative to: it is absolute, or its `..` components pop past the
start. -/
def escapes (l : Str) : Bool :=
  l.head? = some '/' || escapeFold (splitOnChar '/' l) 0

/-- Slash-joined component list: the shape `checked` keeps when only
`appendComp` and `popDotDot` act on it. -/
def joinSlash : List Str → Str
  | [] => []
  | [c] => c
  | c :: c2 :: rest => c ++ '/' :: joinSlash (c2 :: rest)

/-- Invariant of the components of `checked` during the walk: each is
non-empty, slash-free and not `".."`. -/
def GoodComps (cs : List Str) : Prop :=
  ∀ c ∈ cs, c ≠ [] ∧ (∀ ch ∈ c, ch ≠ '/') ∧ c ≠ ['.', '.']

/-- Invariant of the unconsumed `rest` during the walk: it does not start
with a slash and contains no empty component (`"//"`). -/
def GoodRest (r : Str) : Prop :=
  ¬ (['/'] <+: r) ∧ ¬ (['/', '/'] <:+: r)

/-! ### C9: figure_mime (lines 2854-2925) and init_mime (lines 2830-2847) -/

/-- ASCII case folding as `strncasecmp` applies it to both operands. -/
def caseFold (c : Char) : Char :=
  if 'A' ≤ c ∧ c ≤ 'Z' then Char.ofNat (c.toNat + 32) else c

/-- A whole string case-folded. -/
def foldL (s : Str) : Str := s.map caseFold

/-- Byte-wise lexicographic comparison of two NUL-elided strings, the
order `strcmp` computes: a proper prefix is smaller. -/
def lexCmp : Str → Str → Ordering
  | [], [] => Ordering.eq
  | [], _ :: _ => Ordering.lt
  | _ :: _, [] => Ordering.gt
  | a :: as, b :: bs =>
    if a.toNat < b.toNat then Ordering.lt
    else if b.toNat < a.toNat then Ordering.gt
    else lexCmp as bs

/-- `strncasecmp(a, b, n)`: case-folded comparison of at most the first
`n` bytes of each operand; a NUL (here: the end of the list) stops the
comparison, so each side is truncated to `n` characters first. -/
def strncasecmpM (a b : Str) (n : Nat) : Ordering :=
  lexCmp (foldL (a.take n)) (foldL (b.take n))

/-- The comparison the body of figure_mime's binary-search loop performs
against one table entry (lines 2895-2901): `strncasecmp(ext, entry, ext_len)`
decides first; on a tie the extension lengths decide, an exact length
match winning. -/
def ext_compare_search (ext ent : Str) : Ordering :=
  match strncasecmpM ext ent ext.length with
  | Ordering.lt => Ordering.lt
  | Ordering.gt => Ordering.gt
  | Ordering.eq =>
    if ext.length < ent.length then Ordering.lt
    else if ent.length < ext.length then Ordering.gt
    else Ordering.eq

/-- The `while (top >= bot)` binary-search loop of figure_mime (lines
2890-2906) over the type table, entries as (extension, value) pairs.
`mid = (top + bot) / 2` is C `int` division (non-negative here, so floor
agrees); the out-of-range lookup arm is unreachable and totalizes the
definition.  Fuel exhaustion gives `none`; the equivalence theorem is
stated for sufficient fuel, and the wrapper supplies it. -/
def searchLoop (tab : List (Str × Str)) (ext : Str) :
    Nat → Int → Int → Option (Str × Str)
  | 0, _, _ => none
  | fuel + 1, top, bot =>
    if bot ≤ top then
      match tab[((top + bot) / 2).toNat]? with
      | none => none
      | some e =>
        match ext_compare_search ext e.1 with
        | Ordering.lt => searchLoop tab ext fuel ((top + bot) / 2 - 1) bot
        | Ordering.gt => searchLoop tab ext fuel top ((top + bot) / 2 + 1)
        | Ordering.eq => some e
    else none

/-- The type lookup of figure_mime for one extension: the binary search
started with `top = n_typ_tab - 1`, `bot = 0` (lines 2890-2891); `none`
models falling through to the default type. -/
def figure_mime_search (tab : List (Str × Str)) (ext : Str) : Option (Str × Str) :=
  searchLoop tab ext (tab.length + 1) ((tab.length : Int) - 1) 0

/-- Spec-side definition (C9): one entry matches the extension when the
lengths are exactly equal and `strncasecmp` over the extension's length
reports equality. -/
def mime_match (ext : Str) (e : Str × Str) : Bool :=
  ext.length == e.1.length && decide (strncasecmpM ext e.1 ext.length = Ordering.eq)

/-- Spec-side definition (C9): the linear scan of the same table, taking
the first case-insensitive exact-length match. -/
def mime_scan (tab : List (Str × Str)) (ext : Str) : Option (Str × Str) :=
  tab.find? (mime_match ext)

/-! ### Concrete demonstration inputs used by counterexamples and witnesses -/

/-- A small type table, strictly sorted in the case-folded order that
`init_mime`'s qsort establishes for the shipped all-lowercase tables. -/
def demoTypTab : List (Str × Str) :=
  [("gif".toList, "image/gif".toList),
   ("html".toList, "text/html".toList),
   ("jpg".toList, "image/jpeg".toList)]

/-- A request with `Range: bytes=0-` (so `first = 0`, `last = -1` clamped
to `size - 1`) on a 100-byte file, no If-Range, everything else plain. -/
def wholeFileRangeIn : SendMimeIn :=
  { mimeFlag := true, status := 200, gotRange := true, firstByteIndex := 0,
    lastByteIndex := clamp_last_byte_index true (-1) 100, rangeIf := -1,
    mtime := 5, compressionGzip := false, fileAddress := true, maxAge := 60,
    doKeepAlive := false, length := 100 }

/-- A request with `Range: bytes=10-19` on a 100-byte file, no If-Range. -/
def midRangeIn : SendMimeIn :=
  { mimeFlag := true, status := 200, gotRange := true, firstByteIndex := 10,
    lastByteIndex := 19, rangeIf := -1, mtime := 5, compressionGzip := false,
    fileAddress := true, maxAge := 60, doKeepAlive := false, length := 100 }

/-- A request with an unsatisfiable `Range: bytes=5-2`. -/
def emptyRangeIn : SendMimeIn :=
  { mimeFlag := true, status := 200, gotRange := true, firstByteIndex := 5,
    lastByteIndex := 2, rangeIf := -1, mtime := 5, compressionGzip := false,
    fileAddress := true, maxAge := 60, doKeepAlive := false, length := 100 }

/-- A plain HEAD request on a 100-byte file. -/
def headTailIn : TailIn :=
  { methodHead := true, ifModifiedSince := -1, mtime := 5, size := 100,
    gotRange := false, firstByteIndex := 0, lastByteIndex := -1,
    rangeIf := -1, compressionGzip := false, maxAge := 60,
    doKeepAlive := false, mapOk := true }

/-- The `send_mime` input the HEAD branch of `request_tail` builds for
`headTailIn`. -/
def headTailBase : SendMimeIn :=
  { mimeFlag := true, status := 200, gotRange := false, firstByteIndex := 0,
    lastByteIndex := clamp_last_byte_index false (-1) 100, rangeIf := -1,
    mtime := 5, compressionGzip := false, fileAddress := false, maxAge := 60,
    doKeepAlive := false, length := 100 }

/-- A mapped full-content request whose response does carry an ETag. -/
def mappedDemoIn : SendMimeIn :=
  { mimeFlag := true, status := 200, gotRange := false, firstByteIndex := 0,
    lastByteIndex := -1, rangeIf := -1, mtime := 5, compressionGzip := false,
    fileAddress := true, maxAge := 60, doKeepAlive := false, length := 100 }

/-- A gate environment that finds no control files; the gates' own-file
refusal must not depend on it. -/
def trivGateEnv : HtGateEnv :=
  { findHtfile := fun _ _ => none, check2 := fun _ => 0, check2sent := fun _ => none }

/-- A symlink farm rooted at the document root with a single symlink:
`sub/link` whose target is the relative path `..//x`.  No target is
absolute (the lone target does not start with a slash), and nothing
stats for the `no_symlink_check` short-circuit. -/
def counterEnv : SymlinkEnv :=
  { readlink := fun p =>
      if p = "sub/link".toList then .target ("..//x".toList) else .notLink
    statOk := fun _ => false }

/-- An environment with no symlinks at all. -/
def noLinkEnv : SymlinkEnv :=
  { readlink := fun _ => .notLink, statOk := fun _ => false }

/-- Boolean form of "no line of the password file before the decisive one
names this user". -/
def noUserMatch (user : Str) (l : Str) : Bool :=
  match splitFirst ':' l with
  | some p => decide (p.1 ≠ user)
  | none => true

/-! ## Theorems -/

/-! ### Generic list lemmas -/

theorem infix_of_cons {p l : Str} (c : Char) (h : p <:+: l) : p <:+: c :: l := by
  obtain ⟨s, t, hst⟩ := h
  exact ⟨c :: s, t, by rw [← hst]; simp⟩

theorem infix_of_suffix {p x l : Str} (hx : x <:+ l) (h : p <:+: x) : p <:+: l :=
  h.trans hx.isInfix

theorem infix_of_isPrefix {p x l : Str} (hx : x <+: l) (h : p <:+: x) : p <:+: l :=
  h.trans hx.isInfix

theorem single_prefix_iff {x : Char} {l : Str} : [x] <+: l ↔ ∃ r, l = x :: r := by
  cases l with
  | nil => simp
  | cons c r =>
    rw [List.cons_prefix_cons]
    constructor
    · rintro ⟨rfl, -⟩; exact ⟨r, rfl⟩
    · rintro ⟨r', hr⟩
      injection hr with h1 h2
      exact ⟨h1.symm, by simp⟩

theorem pair_prefix_iff {x y : Char} {l : Str} : [x, y] <+: l ↔ ∃ r, l = x :: y :: r := by
  cases l with
  | nil => simp
  | cons c r =>
    rw [List.cons_prefix_cons]
    constructor
    · rintro ⟨rfl, h2⟩
      obtain ⟨r', rfl⟩ := single_prefix_iff.mp h2
      exact ⟨r', rfl⟩
    · rintro ⟨r', hr⟩
      injection hr with h1 h2
      subst h1 h2
      exact ⟨rfl, single_prefix_iff.mpr ⟨r', rfl⟩⟩

theorem infix_append_cases {p a b : Str} (h : p <:+: a ++ b) :
    p <:+: a ∨ p <:+: b ∨
    ∃ s t, p = s ++ t ∧ s ≠ [] ∧ t ≠ [] ∧ s <:+ a ∧ t <+: b := by
  induction a with
  | nil => right; left; simpa using h
  | cons c a' ih =>
    rw [List.cons_append] at h
    rcases List.infix_cons_iff.mp h with hpre | hinf
    · rcases p with _ | ⟨pc, p'⟩
      · left; exact List.nil_infix
      · rw [List.cons_prefix_cons] at hpre
        obtain ⟨rfl, hp'⟩ := hpre
        by_cases hl : p'.length ≤ a'.length
        · left
          have hpa : p' <+: a' := by
            have h2 : p' <+: a' ++ b := hp'
            have h3 : a' <+: a' ++ b := List.prefix_append a' b
            exact List.prefix_of_prefix_length_le h2 h3 hl
          exact (List.cons_prefix_cons.mpr ⟨rfl, hpa⟩).isInfix
        · right; right
          push_neg at hl
          have hap : a' <+: p' := by
            have h3 : a' <+: a' ++ b := List.prefix_append a' b
            exact List.prefix_of_prefix_length_le h3 hp' (le_of_lt hl)
          obtain ⟨t, rfl⟩ := hap
          refine ⟨pc :: a', t, rfl, by simp, ?_, List.suffix_refl _, ?_⟩
          · intro ht
            subst ht
            simp at hl
          · have := (List.prefix_append_right_inj a').mp hp'
            exact this
    · rcases ih hinf with h1 | h1 | ⟨s, t, he, hs, ht, hsa, htb⟩
      · left; exact infix_of_cons c h1
      · right; left; exact h1
      · right; right; exact ⟨s, t, he, hs, ht, hsa.trans (List.suffix_cons c a'), htb⟩

theorem span_two {x y : Char} {a b : Str} (h : [x, y] <:+: a ++ b) :
    [x, y] <:+: a ∨ [x, y] <:+: b ∨ ([x] <:+ a ∧ [y] <+: b) := by
  rcases infix_append_cases h with h1 | h1 | ⟨s, t, he, hs, ht, hsa, htb⟩
  · exact Or.inl h1
  · exact Or.inr (Or.inl h1)
  · right; right
    have hlen : s.length + t.length = 2 := by
      have := congrArg List.length he
      simpa using this.symm
    have hs1 : s.length = 1 := by
      have := List.length_pos.mpr hs
      have := List.length_pos.mpr ht
      omega
    obtain ⟨s0, rfl⟩ := List.length_eq_one.mp hs1
    have ht1 : t.length = 1 := by omega
    obtain ⟨t0, rfl⟩ := List.length_eq_one.mp ht1
    simp only [List.cons_append, List.nil_append, List.cons.injEq] at he
    obtain ⟨rfl, rfl, -⟩ := he
    exact ⟨hsa, htb⟩

theorem span_three {x y z : Char} {a b : Str} (h : [x, y, z] <:+: a ++ b) :
    [x, y, z] <:+: a ∨ [x, y, z] <:+: b ∨
    ([x] <:+ a ∧ [y, z] <+: b) ∨ ([x, y] <:+ a ∧ [z] <+: b) := by
  rcases infix_append_cases h with h1 | h1 | ⟨s, t, he, hs, ht, hsa, htb⟩
  · exact Or.inl h1
  · exact Or.inr (Or.inl h1)
  · right; right
    have hlen : s.length + t.length = 3 := by
      have := congrArg List.length he
      simpa using this.symm
    have hspos := List.length_pos.mpr hs
    have htpos := List.length_pos.mpr ht
    rcases Nat.lt_or_ge s.length 2 with hs2 | hs2
    · have hs1 : s.length = 1 := by omega
      obtain ⟨s0, rfl⟩ := List.length_eq_one.mp hs1
      have ht2 : t.length = 2 := by omega
      obtain ⟨t0, t1, rfl⟩ := List.length_eq_two.mp ht2
      simp only [List.cons_append, List.nil_append, List.cons.injEq] at he
      obtain ⟨rfl, rfl, rfl, -⟩ := he
      exact Or.inl ⟨hsa, htb⟩
    · have hs2' : s.length = 2 := by omega
      obtain ⟨s0, s1, rfl⟩ := List.length_eq_two.mp hs2'
      have ht1 : t.length = 1 := by omega
      obtain ⟨t0, rfl⟩ := List.length_eq_one.mp ht1
      simp only [List.cons_append, List.nil_append, List.cons.injEq] at he
      obtain ⟨rfl, rfl, rfl, -⟩ := he
      exact Or.inr ⟨hsa, htb⟩

theorem span_four {w x y z : Char} {a b : Str} (h : [w, x, y, z] <:+: a ++ b) :
    [w, x, y, z] <:+: a ∨ [w, x, y, z] <:+: b ∨
    ([w] <:+ a ∧ [x, y, z] <+: b) ∨ ([w, x] <:+ a ∧ [y, z] <+: b) ∨
    ([w, x, y] <:+ a ∧ [z] <+: b) := by
  rcases infix_append_cases h with h1 | h1 | ⟨s, t, he, hs, ht, hsa, htb⟩
  · exact Or.inl h1
  · exact Or.inr (Or.inl h1)
  · right; right
    have hlen : s.length + t.length = 4 := by
      have := congrArg List.length he
      simpa using this.symm
    have hspos := List.length_pos.mpr hs
    have htpos := List.length_pos.mpr ht
    rcases Nat.lt_or_ge s.length 2 with hs2 | hs2
    · have hs1 : s.length = 1 := by omega
      obtain ⟨s0, rfl⟩ := List.length_eq_one.mp hs1
      have ht3 : t.length = 3 := by omega
      obtain ⟨t0, t1, t2, rfl⟩ := List.length_eq_three.mp ht3
      simp only [List.cons_append, List.nil_append, List.cons.injEq] at he
      obtain ⟨rfl, rfl, rfl, rfl, -⟩ := he
      exact Or.inl ⟨hsa, htb⟩
    · rcases Nat.lt_or_ge s.length 3 with hs3 | hs3
      · have hs2' : s.length = 2 := by omega
        obtain ⟨s0, s1, rfl⟩ := List.length_eq_two.mp hs2'
        have ht2 : t.length = 2 := by omega
        obtain ⟨t0, t1, rfl⟩ := List.length_eq_two.mp ht2
        simp only [List.cons_append, List.nil_append, List.cons.injEq] at he
        obtain ⟨rfl, rfl, rfl, rfl, -⟩ := he
        exact Or.inr (Or.inl ⟨hsa, htb⟩)
      · have hs3' : s.length = 3 := by omega
        obtain ⟨s0, s1, s2, rfl⟩ := List.length_eq_three.mp hs3'
        have ht1 : t.length = 1 := by omega
        obtain ⟨t0, rfl⟩ := List.length_eq_one.mp ht1
        simp only [List.cons_append, List.nil_append, List.cons.injEq] at he
        obtain ⟨rfl, rfl, rfl, rfl, -⟩ := he
        exact Or.inr (Or.inr ⟨hsa, htb⟩)

/-! ### Helper lemmas for C2, phases (a)-(c) -/

theorem collapseOnce_slash_slash (rest2 : Str) :
    collapseOnce ('/' :: '/' :: rest2) = '/' :: rest2.dropWhile (fun x => x == '/') := rfl

theorem collapseOnce_slash_other {c2 : Char} (h : c2 ≠ '/') (rest2 : Str) :
    collapseOnce ('/' :: c2 :: rest2) = '/' :: collapseOnce (c2 :: rest2) := by
  conv_lhs => unfold collapseOnce
  simp [h]

theorem collapseOnce_other {c : Char} (h : c ≠ '/') (rest : Str) :
    collapseOnce (c :: rest) = c :: collapseOnce rest := by
  conv_lhs => unfold collapseOnce
  simp [h]

theorem collapseOnce_length_lt : ∀ l : Str, ['/', '/'] <:+: l → (collapseOnce l).length < l.length
  | [], h => absurd h.length_le (by simp)
  | [c], h => absurd h.length_le (by simp)
  | c :: c2 :: rest2, h => by
    by_cases hc : c = '/'
    · subst hc
      by_cases hc2 : c2 = '/'
      · subst hc2
        rw [collapseOnce_slash_slash]
        have := (List.dropWhile_suffix (l := rest2) (fun x => x == '/')).length_le
        simp only [List.length_cons]
        omega
      · rw [collapseOnce_slash_other hc2]
        have htail : ['/', '/'] <:+: (c2 :: rest2) := by
          rcases List.infix_cons_iff.mp h with hp | hi
          · obtain ⟨r, hr⟩ := pair_prefix_iff.mp hp
            injection hr with e1 e2
            injection e2 with e3 _
            exact absurd e3 hc2
          · exact hi
        have := collapseOnce_length_lt (c2 :: rest2) htail
        simp only [List.length_cons] at *
        omega
    · rw [collapseOnce_other hc]
      have htail : ['/', '/'] <:+: (c2 :: rest2) := by
        rcases List.infix_cons_iff.mp h with hp | hi
        · obtain ⟨r, hr⟩ := pair_prefix_iff.mp hp
          injection hr with e1 e2
          exact absurd e1 hc
        · exact hi
      have := collapseOnce_length_lt (c2 :: rest2) htail
      simp only [List.length_cons] at *
      omega

theorem collapseLoop_no : ∀ (n : Nat) (l : Str), l.length ≤ n →
    ¬ (['/', '/'] <:+: collapseLoop n l) := by
  intro n
  induction n with
  | zero =>
    intro l hl
    have hnil : l = [] := List.length_eq_zero.mp (Nat.le_antisymm hl (Nat.zero_le _))
    subst hnil
    intro h
    exact absurd h.length_le (by simp [collapseLoop])
  | succ n ih =>
    intro l hl
    unfold collapseLoop
    split_ifs with h
    · exact ih _ (by have := collapseOnce_length_lt l h; omega)
    · exact h

theorem collapseSlashes_noDD (l : Str) : ¬ (['/', '/'] <:+: collapseSlashes l) :=
  collapseLoop_no l.length l le_rfl

theorem stripLeadSlash_suffix (l : Str) : stripLeadSlash l <:+ l := by
  cases l with
  | nil => exact List.suffix_refl _
  | cons c r =>
    show (if c = '/' then r else c :: r) <:+ c :: r
    split_ifs with h
    · exact List.suffix_cons c r
    · exact List.suffix_refl _

theorem dropLeadDotSlash_suffix : ∀ l : Str, dropLeadDotSlash l <:+ l
  | [] => List.suffix_refl _
  | [c] => List.suffix_refl _
  | c1 :: c2 :: r => by
    unfold dropLeadDotSlash
    split_ifs with h
    · exact (dropLeadDotSlash_suffix r).trans
        ((List.suffix_cons c2 r).trans (List.suffix_cons c1 (c2 :: r)))
    · exact List.suffix_refl _

theorem dropLeadDotSlash_no_lead : ∀ l : Str, ¬ (['.', '/'] <+: dropLeadDotSlash l)
  | [] => by intro h; have := h.length_le; simp [dropLeadDotSlash] at this
  | [c] => by
    intro h
    have := h.length_le
    simp [dropLeadDotSlash] at this
  | c1 :: c2 :: r => by
    unfold dropLeadDotSlash
    split_ifs with h
    · exact dropLeadDotSlash_no_lead r
    · intro hp
      obtain ⟨r', hr⟩ := pair_prefix_iff.mp hp
      injection hr with e1 e2
      injection e2 with e3 _
      exact h ⟨e1, e3⟩

theorem dotSegOnce_seg (rest3 : Str) :
    dotSegOnce ('/' :: '.' :: '/' :: rest3) = '/' :: rest3 := rfl

theorem dotSegOnce_slash_no {c2 c3 : Char} (h : ¬(c2 = '.' ∧ c3 = '/')) (rest3 : Str) :
    dotSegOnce ('/' :: c2 :: c3 :: rest3) = '/' :: dotSegOnce (c2 :: c3 :: rest3) := by
  conv_lhs => unfold dotSegOnce
  simp [h]

theorem dotSegOnce_slash_nil : dotSegOnce ['/'] = ['/'] := rfl

theorem dotSegOnce_slash_one (c2 : Char) :
    dotSegOnce ['/', c2] = '/' :: dotSegOnce [c2] := rfl

theorem dotSegOnce_other {c : Char} (h : c ≠ '/') (rest : Str) :
    dotSegOnce (c :: rest) = c :: dotSegOnce rest := by
  conv_lhs => unfold dotSegOnce
  simp [h]

theorem dotSegOnce_head : ∀ l : Str, (dotSegOnce l).head? = l.head?
  | [] => rfl
  | c :: rest => by
    by_cases hc : c = '/'
    · subst hc
      match rest with
      | [] => rfl
      | [c2] => rfl
      | c2 :: c3 :: r3 =>
        by_cases h : c2 = '.' ∧ c3 = '/'
        · obtain ⟨rfl, rfl⟩ := h
          rw [dotSegOnce_seg]
          rfl
        · rw [dotSegOnce_slash_no h]
          rfl
    · rw [dotSegOnce_other hc]
      rfl

theorem head_slash_of_head? {l : Str} {x : Char} (h : l.head? = some x) : [x] <+: l := by
  cases l with
  | nil => simp at h
  | cons c r =>
    simp only [List.head?_cons, Option.some.injEq] at h
    subst h
    exact single_prefix_iff.mpr ⟨r, rfl⟩

theorem dotSegOnce_length_lt : ∀ l : Str, ['/', '.', '/'] <:+: l →
    (dotSegOnce l).length < l.length
  | [], h => absurd h.length_le (by simp)
  | [c], h => absurd h.length_le (by simp)
  | [c, c2], h => absurd h.length_le (by simp)
  | c :: c2 :: c3 :: r3, h => by
    by_cases hc : c = '/'
    · subst hc
      by_cases hcc : c2 = '.' ∧ c3 = '/'
      · obtain ⟨rfl, rfl⟩ := hcc
        rw [dotSegOnce_seg]
        simp
      · rw [dotSegOnce_slash_no hcc]
        have htail : ['/', '.', '/'] <:+: (c2 :: c3 :: r3) := by
          rcases List.infix_cons_iff.mp h with hp | hi
          · rw [List.cons_prefix_cons] at hp
            obtain ⟨-, hp2⟩ := hp
            obtain ⟨r', hr⟩ := pair_prefix_iff.mp hp2
            injection hr with e1 e2
            injection e2 with e3 _
            exact absurd ⟨e1, e3⟩ hcc
          · exact hi
        have := dotSegOnce_length_lt (c2 :: c3 :: r3) htail
        simp only [List.length_cons] at *
        omega
    · rw [dotSegOnce_other hc]
      have htail : ['/', '.', '/'] <:+: (c2 :: c3 :: r3) := by
        rcases List.infix_cons_iff.mp h with hp | hi
        · rw [List.cons_prefix_cons] at hp
          exact absurd hp.1.symm hc
        · exact hi
      have := dotSegOnce_length_lt (c2 :: c3 :: r3) htail
      simp only [List.length_cons] at *
      omega

theorem dotSegLoop_no : ∀ (n : Nat) (l : Str), l.length ≤ n →
    ¬ (['/', '.', '/'] <:+: dotSegLoop n l) := by
  intro n
  induction n with
  | zero =>
    intro l hl
    have hnil : l = [] := List.length_eq_zero.mp (Nat.le_antisymm hl (Nat.zero_le _))
    subst hnil
    intro h
    exact absurd h.length_le (by simp [dotSegLoop])
  | succ n ih =>
    intro l hl
    unfold dotSegLoop
    split_ifs with h
    · exact ih _ (by have := dotSegOnce_length_lt l h; omega)
    · exact h

theorem removeDotSegs_noDS (l : Str) : ¬ (['/', '.', '/'] <:+: removeDotSegs l) :=
  dotSegLoop_no l.length l le_rfl

theorem dotSegOnce_noDD : ∀ l : Str, ¬ (['/', '/'] <:+: l) → ¬ (['/', '/'] <:+: dotSegOnce l)
  | [], _ => by intro h; exact absurd h.length_le (by simp [dotSegOnce])
  | c :: rest, h => by
    by_cases hc : c = '/'
    · subst hc
      match rest with
      | [] =>
        intro hi
        exact absurd hi.length_le (by simp [dotSegOnce_slash_nil])
      | [c2] =>
        by_cases hc2 : c2 = '/'
        · subst hc2
          exact absurd ⟨[], [], by simp⟩ h
        · intro hi
          rw [dotSegOnce_slash_one, dotSegOnce_other hc2] at hi
          have := hi.eq_of_length (by simp [dotSegOnce])
          injection this with _ e2
          injection e2 with e3 _
          exact hc2 e3.symm
      | c2 :: c3 :: r3 =>
        by_cases hcc : c2 = '.' ∧ c3 = '/'
        · obtain ⟨rfl, rfl⟩ := hcc
          rw [dotSegOnce_seg]
          intro hi
          rcases List.infix_cons_iff.mp hi with hp | hi2
          · obtain ⟨r', hr⟩ := pair_prefix_iff.mp hp
            injection hr with e1 e2
            apply h
            exact ⟨['/', '.'], r', by rw [e2]; simp⟩
          · exact h (infix_of_suffix
              (((List.suffix_cons '/' r3).trans (List.suffix_cons '.' _)).trans
                (List.suffix_cons '/' _)) hi2)
        · rw [dotSegOnce_slash_no hcc]
          intro hi
          rcases List.infix_cons_iff.mp hi with hp | hi2
          · obtain ⟨r', hr⟩ := pair_prefix_iff.mp hp
            injection hr with e1 e2
            have hh : (dotSegOnce (c2 :: c3 :: r3)).head? = some '/' := by
              rw [e2]; rfl
            rw [dotSegOnce_head] at hh
            simp only [List.head?_cons, Option.some.injEq] at hh
            apply h
            exact ⟨[], c3 :: r3, by rw [hh]; simp⟩
          · have hrest : ¬ (['/', '/'] <:+: (c2 :: c3 :: r3)) := fun hx =>
              h (infix_of_cons '/' hx)
            exact dotSegOnce_noDD (c2 :: c3 :: r3) hrest hi2
    · rw [dotSegOnce_other hc]
      intro hi
      rcases List.infix_cons_iff.mp hi with hp | hi2
      · rw [List.cons_prefix_cons] at hp
        exact hc hp.1.symm
      · have hrest : ¬ (['/', '/'] <:+: rest) := fun hx => h (infix_of_cons c hx)
        exact dotSegOnce_noDD rest hrest hi2

theorem dotSegOnce_start (l : Str) (h1 : ¬ (['/'] <+: l)) (h2 : ¬ (['.', '/'] <+: l)) :
    ¬ (['/'] <+: dotSegOnce l) ∧ ¬ (['.', '/'] <+: dotSegOnce l) := by
  constructor
  · intro hp
    obtain ⟨r, hr⟩ := single_prefix_iff.mp hp
    have hh : l.head? = some '/' := by
      rw [← dotSegOnce_head, hr]; rfl
    exact h1 (head_slash_of_head? hh)
  · intro hp
    obtain ⟨r, hr⟩ := pair_prefix_iff.mp hp
    have hh : l.head? = some '.' := by
      rw [← dotSegOnce_head, hr]; rfl
    cases l with
    | nil => simp at hh
    | cons c rest =>
      simp only [List.head?_cons, Option.some.injEq] at hh
      subst hh
      rw [dotSegOnce_other (by decide : ('.' : Char) ≠ '/')] at hr
      injection hr with e1 e2
      have hh2 : rest.head? = some '/' := by
        rw [← dotSegOnce_head, e2]; rfl
      obtain ⟨r2, hr2⟩ := single_prefix_iff.mp (head_slash_of_head? hh2)
      subst hr2
      exact h2 (pair_prefix_iff.mpr ⟨r2, rfl⟩)

theorem dotSegLoop_pres : ∀ (n : Nat) (l : Str),
    ¬ (['/', '/'] <:+: l) → ¬ (['/'] <+: l) → ¬ (['.', '/'] <+: l) →
    ¬ (['/', '/'] <:+: dotSegLoop n l) ∧ ¬ (['/'] <+: dotSegLoop n l) ∧
    ¬ (['.', '/'] <+: dotSegLoop n l) := by
  intro n
  induction n with
  | zero => intro l h0 h1 h2; exact ⟨h0, h1, h2⟩
  | succ n ih =>
    intro l h0 h1 h2
    unfold dotSegLoop
    split_ifs with h
    · have hs := dotSegOnce_start l h1 h2
      exact ih _ (dotSegOnce_noDD l h0) hs.1 hs.2
    · exact ⟨h0, h1, h2⟩

/-! ### Helper lemmas for C2, phases (d)-(e) -/

theorem triple_prefix_iff {x y z : Char} {l : Str} :
    [x, y, z] <+: l ↔ ∃ r, l = x :: y :: z :: r := by
  cases l with
  | nil => simp
  | cons c r =>
    rw [List.cons_prefix_cons]
    constructor
    · rintro ⟨rfl, h2⟩
      obtain ⟨r', rfl⟩ := pair_prefix_iff.mp h2
      exact ⟨r', rfl⟩
    · rintro ⟨r', hr⟩
      injection hr with h1 h2
      subst h1 h2
      exact ⟨rfl, pair_prefix_iff.mpr ⟨r', rfl⟩⟩

theorem stripLeadSlash_no_lead (l : Str) (h0 : ¬ (['/', '/'] <:+: l)) :
    ¬ (['/'] <+: stripLeadSlash l) := by
  cases l with
  | nil => intro h; have := h.length_le; simp [stripLeadSlash] at this
  | cons c r =>
    show ¬ (['/'] <+: if c = '/' then r else c :: r)
    split_ifs with hc
    · subst hc
      intro hp
      obtain ⟨r', rfl⟩ := single_prefix_iff.mp hp
      exact h0 ⟨[], r', by simp⟩
    · intro hp
      obtain ⟨r', hr⟩ := single_prefix_iff.mp hp
      injection hr with e1 _
      exact hc e1

theorem dropLeadDotSlash_no_slash : ∀ l : Str, ¬ (['/', '/'] <:+: l) → ¬ (['/'] <+: l) →
    ¬ (['/'] <+: dropLeadDotSlash l)
  | [], _, h1 => h1
  | [c], _, h1 => h1
  | c1 :: c2 :: r, h0, h1 => by
    unfold dropLeadDotSlash
    split_ifs with h
    · obtain ⟨rfl, rfl⟩ := h
      apply dropLeadDotSlash_no_slash r
      · intro hx
        exact h0 (infix_of_suffix
          ((List.suffix_cons '/' r).trans (List.suffix_cons '.' _)) hx)
      · intro hp
        obtain ⟨r', rfl⟩ := single_prefix_iff.mp hp
        exact h0 ⟨['.'], r', by simp⟩
    · exact h1

theorem dropLeadDotDotSlash_suffix : ∀ l : Str, dropLeadDotDotSlash l <:+ l
  | [] => List.suffix_refl _
  | [c] => List.suffix_refl _
  | [c1, c2] => List.suffix_refl _
  | c1 :: c2 :: c3 :: r => by
    unfold dropLeadDotDotSlash
    split_ifs with h
    · exact (dropLeadDotDotSlash_suffix r).trans
        (((List.suffix_cons c3 r).trans (List.suffix_cons c2 _)).trans
          (List.suffix_cons c1 _))
    · exact List.suffix_refl _

theorem dropLeadDotDotSlash_no_lead : ∀ l : Str, ¬ (['.', '.', '/'] <+: dropLeadDotDotSlash l)
  | [] => by intro h; have := h.length_le; simp [dropLeadDotDotSlash] at this
  | [c] => by intro h; have := h.length_le; simp [dropLeadDotDotSlash] at this
  | [c1, c2] => by intro h; have := h.length_le; simp [dropLeadDotDotSlash] at this
  | c1 :: c2 :: c3 :: r => by
    unfold dropLeadDotDotSlash
    split_ifs with h
    · exact dropLeadDotDotSlash_no_lead r
    · intro hp
      obtain ⟨r', hr⟩ := triple_prefix_iff.mp hp
      injection hr with e1 e2
      injection e2 with e3 e4
      injection e4 with e5 _
      exact h ⟨e1, e3, e5⟩

theorem dropLeadDotDotSlash_start : ∀ l : Str, ¬ (['/', '/'] <:+: l) →
    ¬ (['/', '.', '/'] <:+: l) → ¬ (['/'] <+: l) → ¬ (['.', '/'] <+: l) →
    ¬ (['/'] <+: dropLeadDotDotSlash l) ∧ ¬ (['.', '/'] <+: dropLeadDotDotSlash l)
  | [], _, _, h1, h2 => ⟨h1, h2⟩
  | [c], _, _, h1, h2 => ⟨h1, h2⟩
  | [c1, c2], _, _, h1, h2 => ⟨h1, h2⟩
  | c1 :: c2 :: c3 :: r, h0, hds, h1, h2 => by
    unfold dropLeadDotDotSlash
    split_ifs with h
    · obtain ⟨rfl, rfl, rfl⟩ := h
      apply dropLeadDotDotSlash_start r
      · intro hx
        exact h0 (infix_of_suffix
          (((List.suffix_cons '/' r).trans (List.suffix_cons '.' _)).trans
            (List.suffix_cons '.' _)) hx)
      · intro hx
        exact hds (infix_of_suffix
          (((List.suffix_cons '/' r).trans (List.suffix_cons '.' _)).trans
            (List.suffix_cons '.' _)) hx)
      · intro hp
        obtain ⟨r', rfl⟩ := single_prefix_iff.mp hp
        exact h0 ⟨['.', '.'], r', by simp⟩
      · intro hp
        obtain ⟨r', rfl⟩ := pair_prefix_iff.mp hp
        exact hds ⟨['.', '.'], r', by simp⟩
    · exact ⟨h1, h2⟩

theorem breakDotDot_some : ∀ l a b : Str, breakDotDot l = some (a, b) →
    l = a ++ ['/', '.', '.', '/'] ++ b
  | [], a, b => by intro h; simp [breakDotDot] at h
  | c :: rest, a, b => by
    unfold breakDotDot
    split_ifs with h
    · intro he
      simp only [Option.some.injEq, Prod.mk.injEq] at he
      obtain ⟨rfl, rfl⟩ := he
      obtain ⟨t, ht⟩ := h
      rw [← ht]
      simp
    · intro he
      cases hb : breakDotDot rest with
      | none => rw [hb] at he; simp at he
      | some p =>
        rw [hb] at he
        simp only [Option.map_some', Option.some.injEq, Prod.mk.injEq] at he
        obtain ⟨rfl, rfl⟩ := he
        have := breakDotDot_some rest p.1 p.2 hb
        rw [this]
        simp

theorem breakDotDot_none : ∀ l : Str, breakDotDot l = none →
    ¬ (['/', '.', '.', '/'] <:+: l)
  | [] => fun _ h => absurd h.length_le (by simp)
  | c :: rest => by
    unfold breakDotDot
    split_ifs with h
    · intro he; simp at he
    · intro he hi
      cases hb : breakDotDot rest with
      | none =>
        rcases List.infix_cons_iff.mp hi with hp | hi2
        · exact h hp
        · exact breakDotDot_none rest hb hi2
      | some p => rw [hb] at he; simp at he

theorem dropWhile_head_not (p : Char → Bool) : ∀ l : Str,
    l.dropWhile p = [] ∨ ∃ x xs, l.dropWhile p = x :: xs ∧ p x = false
  | [] => Or.inl rfl
  | c :: r => by
    by_cases h : p c
    · rw [List.dropWhile_cons_of_pos h]
      exact dropWhile_head_not p r
    · rw [List.dropWhile_cons_of_neg h]
      exact Or.inr ⟨c, r, rfl, by simpa using h⟩

theorem lastSlashKeep_isPrefix (a : Str) : lastSlashKeep a <+: a := by
  unfold lastSlashKeep
  have h := List.dropWhile_suffix (l := a.reverse) (fun c => !(c == '/'))
  exact List.reverse_suffix.mp (by simpa using h)

theorem lastSlashKeep_ends_slash (a : Str) :
    lastSlashKeep a = [] ∨ ∃ a', lastSlashKeep a = a' ++ ['/'] := by
  unfold lastSlashKeep
  rcases dropWhile_head_not (fun c => !(c == '/')) a.reverse with h | ⟨x, xs, h, hx⟩
  · left; rw [h]; rfl
  · right
    have hx' : x = '/' := by simpa using hx
    subst hx'
    exact ⟨xs.reverse, by rw [h]; simp⟩

theorem dd_step_pres {l1 a b : Str}
    (hdec : l1 = a ++ ['/', '.', '.', '/'] ++ b)
    (h0 : ¬ (['/', '/'] <:+: l1)) (hds : ¬ (['/', '.', '/'] <:+: l1))
    (h1 : ¬ (['/'] <+: l1)) (h2 : ¬ (['.', '/'] <+: l1)) :
    ¬ (['/', '/'] <:+: lastSlashKeep a ++ b) ∧
    ¬ (['/', '.', '/'] <:+: lastSlashKeep a ++ b) ∧
    ¬ (['/'] <+: lastSlashKeep a ++ b) ∧ ¬ (['.', '/'] <+: lastSlashKeep a ++ b) := by
  have hbslash : ¬ (['/'] <+: b) := by
    intro hp
    obtain ⟨b', rfl⟩ := single_prefix_iff.mp hp
    exact h0 ⟨a ++ ['/', '.', '.'], b', by rw [hdec]; simp⟩
  have hbdot : ¬ (['.', '/'] <+: b) := by
    intro hp
    obtain ⟨b', rfl⟩ := pair_prefix_iff.mp hp
    exact hds ⟨a ++ ['/', '.', '.'], b', by rw [hdec]; simp⟩
  have hapre : a <+: l1 := ⟨['/', '.', '.', '/'] ++ b, by rw [hdec]; simp⟩
  have hskpre : lastSlashKeep a <+: l1 := (lastSlashKeep_isPrefix a).trans hapre
  have hbinf : ∀ p : Str, p <:+: b → p <:+: l1 := fun p hp =>
    infix_of_suffix ⟨a ++ ['/', '.', '.', '/'], by rw [hdec]⟩ hp
  refine ⟨?_, ?_, ?_, ?_⟩
  · intro hi
    rcases span_two hi with hx | hx | ⟨-, hx⟩
    · exact h0 (infix_of_isPrefix hskpre hx)
    · exact h0 (hbinf _ hx)
    · exact hbslash hx
  · intro hi
    rcases span_three hi with hx | hx | ⟨-, hx⟩ | ⟨-, hx⟩
    · exact hds (infix_of_isPrefix hskpre hx)
    · exact hds (hbinf _ hx)
    · exact hbdot hx
    · exact hbslash hx
  · intro hp
    cases hcc : lastSlashKeep a with
    | nil =>
      rw [hcc, List.nil_append] at hp
      exact hbslash hp
    | cons x rest' =>
      rw [hcc, List.cons_append] at hp
      obtain ⟨r', hr⟩ := single_prefix_iff.mp hp
      injection hr with e1 _
      subst e1
      exact h1 ((single_prefix_iff.mpr ⟨rest', rfl⟩).trans (hcc ▸ hskpre))
  · intro hp
    cases hcc : lastSlashKeep a with
    | nil =>
      rw [hcc, List.nil_append] at hp
      exact hbdot hp
    | cons x rest' =>
      rw [hcc, List.cons_append] at hp
      obtain ⟨r', hr⟩ := pair_prefix_iff.mp hp
      injection hr with e1 e2
      subst e1
      cases rest' with
      | nil =>
        rw [List.nil_append] at e2
        exact hbslash (single_prefix_iff.mpr ⟨r', e2⟩)
      | cons y rest'' =>
        rw [List.cons_append] at e2
        injection e2 with e3 _
        subst e3
        exact h2 ((pair_prefix_iff.mpr ⟨rest'', rfl⟩).trans (hcc ▸ hskpre))

theorem ddLoop_post : ∀ (n : Nat) (l : Str), ¬ (['/', '/'] <:+: l) →
    ¬ (['/', '.', '/'] <:+: l) → ¬ (['/'] <+: l) → ¬ (['.', '/'] <+: l) →
    l.length ≤ n →
    (¬ (['/', '/'] <:+: ddLoop n l) ∧ ¬ (['/', '.', '/'] <:+: ddLoop n l) ∧
     ¬ (['/'] <+: ddLoop n l) ∧ ¬ (['.', '/'] <+: ddLoop n l)) ∧
    ¬ (['/', '.', '.', '/'] <:+: ddLoop n l) ∧ ¬ (['.', '.', '/'] <+: ddLoop n l) := by
  intro n
  induction n with
  | zero =>
    intro l h0 hds h1 h2 hl
    have hnil : l = [] := List.length_eq_zero.mp (Nat.le_antisymm hl (Nat.zero_le _))
    subst hnil
    refine ⟨⟨h0, hds, h1, h2⟩, ?_, ?_⟩
    · intro h; exact absurd h.length_le (by simp [ddLoop])
    · intro h; exact absurd h.length_le (by simp [ddLoop])
  | succ n ih =>
    intro l h0 hds h1 h2 hl
    have hsuf := dropLeadDotDotSlash_suffix l
    have k0 : ¬ (['/', '/'] <:+: dropLeadDotDotSlash l) :=
      fun h => h0 (infix_of_suffix hsuf h)
    have kds : ¬ (['/', '.', '/'] <:+: dropLeadDotDotSlash l) :=
      fun h => hds (infix_of_suffix hsuf h)
    have kst := dropLeadDotDotSlash_start l h0 hds h1 h2
    cases hb : breakDotDot (dropLeadDotDotSlash l) with
    | none =>
      have hred : ddLoop (n + 1) l = dropLeadDotDotSlash l := by
        conv_lhs => unfold ddLoop
        rw [hb]
      rw [hred]
      exact ⟨⟨k0, kds, kst.1, kst.2⟩, breakDotDot_none _ hb, dropLeadDotDotSlash_no_lead l⟩
    | some p =>
      obtain ⟨a, b⟩ := p
      have hred : ddLoop (n + 1) l = ddLoop n (lastSlashKeep a ++ b) := by
        conv_lhs => unfold ddLoop
        rw [hb]
      rw [hred]
      have hdec := breakDotDot_some _ a b hb
      have hstep := dd_step_pres hdec k0 kds kst.1 kst.2
      have hlen : (lastSlashKeep a ++ b).length ≤ n := by
        have hk := (lastSlashKeep_isPrefix a).length_le
        have hd := congrArg List.length hdec
        have hsl := hsuf.length_le
        simp only [List.length_append, List.length_cons] at hd ⊢
        simp at hd
        omega
      exact ih _ hstep.1 hstep.2.1 hstep.2.2.1 hstep.2.2.2 hlen

theorem trimLoop_prefix : ∀ (n : Nat) (l : Str), trimLoop n l <+: l := by
  intro n
  induction n with
  | zero => intro l; exact List.prefix_refl _
  | succ n ih =>
    intro l
    unfold trimLoop
    split_ifs with h1 h2
    · refine (ih _).trans ?_
      have ha : (lastSlashKeep (l.take (l.length - 3))).dropLast <+:
          lastSlashKeep (l.take (l.length - 3)) := List.dropLast_prefix _
      exact (ha.trans (lastSlashKeep_isPrefix _)).trans (List.take_prefix _ _)
    · exact List.prefix_refl _
    · exact List.prefix_refl _

/-! ### Helper lemmas for C8 -/

theorem ampOk_cons (c : Char) (r : Str) :
    ampOk (c :: r) = ((if c = '&' then entTail r else true) && ampOk r) := rfl

theorem ampOk_entity_append (c : Char) (t : Str) (ht : ampOk t = true) :
    ampOk (defangEntity c ++ t) = true := by
  unfold defangEntity
  split_ifs with h1 h2 h3 h4 h5 h6
  · simp [ampOk, entTail, List.isPrefixOf, ht]
  · simp [ampOk, entTail, List.isPrefixOf, ht]
  · simp [ampOk, entTail, List.isPrefixOf, ht]
  · simp [ampOk, entTail, List.isPrefixOf, ht]
  · simp [ampOk, entTail, List.isPrefixOf, ht]
  · simp [ampOk, entTail, List.isPrefixOf, ht]
  · show ampOk (c :: t) = true
    rw [ampOk_cons, if_neg h3]
    simpa using ht

theorem ampOk_defangGo (s : Str) : ∀ pos dfsize : Int, ampOk (defangGo s pos dfsize) = true := by
  induction s with
  | nil => intro _ _; rfl
  | cons c rest ih =>
    intro pos dfsize
    unfold defangGo
    split
    · exact ampOk_entity_append c _ (ih _ _)
    · rfl

theorem defangEntity_length (c : Char) : (defangEntity c).length ≤ 6 := by
  unfold defangEntity
  split_ifs <;> first | decide | simp

theorem defangGo_length (s : Str) :
    ∀ pos dfsize : Int, (defangGo s pos dfsize).length ≤ 6 * s.length := by
  induction s with
  | nil => intro _ _; simp [defangGo]
  | cons c rest ih =>
    intro pos dfsize
    unfold defangGo
    split
    · simp only [List.length_append, List.length_cons]
      have h1 := defangEntity_length c
      have h2 := ih (pos + (defangEntity c).length) dfsize
      omega
    · simp

theorem mem_defangEntity (c d : Char) (hd : d ∈ defangEntity c) :
    d ≠ '<' ∧ d ≠ '>' ∧ d ≠ '"' ∧ d ≠ squote ∧ d ≠ '?' := by
  unfold defangEntity at hd
  split_ifs at hd with h1 h2 h3 h4 h5 h6 <;>
    simp only [List.mem_cons, List.not_mem_nil, or_false] at hd
  · rcases hd with rfl | rfl | rfl | rfl <;> decide
  · rcases hd with rfl | rfl | rfl | rfl <;> decide
  · rcases hd with rfl | rfl | rfl | rfl | rfl <;> decide
  · rcases hd with rfl | rfl | rfl | rfl | rfl | rfl <;> decide
  · rcases hd with rfl | rfl | rfl | rfl | rfl <;> decide
  · rcases hd with rfl | rfl | rfl | rfl | rfl <;> decide
  · subst hd
    exact ⟨h1, h2, h4, h5, h6⟩

theorem defangGo_mem (s : Str) :
    ∀ (pos dfsize : Int) (d : Char), d ∈ defangGo s pos dfsize →
      d ≠ '<' ∧ d ≠ '>' ∧ d ≠ '"' ∧ d ≠ squote ∧ d ≠ '?' := by
  induction s with
  | nil => intro _ _ d hd; simp [defangGo] at hd
  | cons c rest ih =>
    intro pos dfsize d hd
    unfold defangGo at hd
    split at hd
    · rcases List.mem_append.mp hd with h | h
      · exact mem_defangEntity c d h
      · exact ih _ _ d h
    · simp at hd

/-! ### C8 -/

/-- Claim C8, the part that fails: the output of `defang` is claimed to be
at most 5 times as long as the input; but the double quote turns into the
six-byte `&quot;`, so the one-character input `"` yields six bytes of
output. -/
theorem c8_defang_five_times_counterexample :
    defang ("\"".toList) 1000 = "&quot;".toList ∧
    ¬((defang ("\"".toList) 1000).length ≤ 5 * ("\"".toList).length) := by
  decide

/-- Claim C8 (amended: the growth bound is 6 times the input length, the
longest entity `&quot;` being six bytes; the rest of the claim holds as
stated): for every input string and destination size, the output of
`defang` contains none of the five dangerous characters, every `&` in it
begins one of the entity forms it emits, and its length is at most six
times the input length. -/
theorem c8_defang_output_clean (str : Str) (dfsize : Int) :
    (∀ d ∈ defang str dfsize, d ≠ '<' ∧ d ≠ '>' ∧ d ≠ '"' ∧ d ≠ squote ∧ d ≠ '?') ∧
    ampOk (defang str dfsize) = true ∧
    (defang str dfsize).length ≤ 6 * str.length :=
  ⟨fun d hd => defangGo_mem str 0 dfsize d hd, ampOk_defangGo str 0 dfsize,
    defangGo_length str 0 dfsize⟩

/-- Witness for C8's theorem at a concrete input. -/
theorem c8_defang_output_clean_witness :
    ('&' ≠ '<' ∧ '&' ≠ '>' ∧ '&' ≠ '"' ∧ '&' ≠ squote ∧ '&' ≠ '?') ∧
    ampOk (defang ("<a>".toList) 100) = true := by
  refine ⟨(c8_defang_output_clean ("<a>".toList) 100).1 '&' (by decide),
    (c8_defang_output_clean ("<a>".toList) 100).2.1⟩

/-! ### Helper lemmas for C1 -/

theorem splitOnChar_no_occ (c : Char) : ∀ l : Str, (∀ ch ∈ l, ch ≠ c) →
    splitOnChar c l = [l]
  | [], _ => rfl
  | x :: r, h => by
    unfold splitOnChar
    rw [if_neg (h x (by simp))]
    rw [splitOnChar_no_occ c r (fun ch hch => h ch (by simp [hch]))]

theorem splitOnChar_append (c : Char) : ∀ (a b : Str), (∀ ch ∈ a, ch ≠ c) →
    splitOnChar c (a ++ c :: b) = a :: splitOnChar c b
  | [], b, _ => by
    show splitOnChar c (c :: b) = [] :: splitOnChar c b
    conv_lhs => unfold splitOnChar
    rw [if_pos rfl]
  | x :: a', b, h => by
    show splitOnChar c (x :: (a' ++ c :: b)) = (x :: a') :: splitOnChar c b
    conv_lhs => unfold splitOnChar
    rw [if_neg (h x (by simp))]
    rw [splitOnChar_append c a' b (fun ch hch => h ch (by simp [hch]))]

theorem joinSlash_concat (comp : Str) : ∀ (c0 : Str) (cs : List Str),
    joinSlash ((c0 :: cs) ++ [comp]) = joinSlash (c0 :: cs) ++ '/' :: comp
  | c0, [] => rfl
  | c0, c1 :: cs' => by
    show joinSlash (c0 :: ((c1 :: cs') ++ [comp])) =
      (c0 ++ '/' :: joinSlash (c1 :: cs')) ++ '/' :: comp
    have : (c1 :: cs') ++ [comp] = c1 :: (cs' ++ [comp]) := by simp
    rw [this]
    show c0 ++ '/' :: joinSlash (c1 :: (cs' ++ [comp])) =
      (c0 ++ '/' :: joinSlash (c1 :: cs')) ++ '/' :: comp
    rw [show c1 :: (cs' ++ [comp]) = (c1 :: cs') ++ [comp] by simp]
    rw [joinSlash_concat comp c1 cs']
    simp

theorem joinSlash_ne_nil : ∀ (c : Str) (cs : List Str), GoodComps (c :: cs) →
    joinSlash (c :: cs) ≠ []
  | c, [], h => by
    show c ≠ []
    exact (h c (by simp)).1
  | c, c1 :: cs', h => by
    show c ++ '/' :: joinSlash (c1 :: cs') ≠ []
    simp

theorem joinSlash_head : ∀ cs : List Str, GoodComps cs →
    (joinSlash cs).head? ≠ some '/'
  | [], _ => by simp [joinSlash]
  | [c], h => by
    show c.head? ≠ some '/'
    intro hx
    cases c with
    | nil => simp at hx
    | cons x r =>
      rw [List.head?_cons] at hx
      exact (h (x :: r) (by simp)).2.1 x (by simp) (Option.some.inj hx)
  | c :: c1 :: cs', h => by
    show (c ++ '/' :: joinSlash (c1 :: cs')).head? ≠ some '/'
    cases hc : c with
    | nil => exact absurd hc (h c (by simp)).1
    | cons x r =>
      rw [List.cons_append, List.head?_cons]
      intro hx
      exact (h c (by simp)).2.1 x (by simp [hc]) (Option.some.inj hx)

theorem joinSlash_getLast : ∀ cs : List Str, GoodComps cs →
    (joinSlash cs).getLast? ≠ some '/'
  | [], _ => by simp [joinSlash]
  | [c], h => by
    show c.getLast? ≠ some '/'
    intro hx
    rcases List.eq_nil_or_concat c with rfl | ⟨c', x, rfl⟩
    · simp at hx
    · rw [List.concat_eq_append, List.getLast?_concat] at hx
      exact (h (c'.concat x) (by simp)).2.1 x (by simp [List.concat_eq_append])
        (Option.some.inj hx)
  | c :: c1 :: cs', h => by
    show (c ++ '/' :: joinSlash (c1 :: cs')).getLast? ≠ some '/'
    have htail : GoodComps (c1 :: cs') := fun x hx => h x (by simp [hx])
    have hne := joinSlash_ne_nil c1 cs' htail
    have ih := joinSlash_getLast (c1 :: cs') htail
    rcases List.eq_nil_or_concat (joinSlash (c1 :: cs')) with he | ⟨j', x, he⟩
    · exact absurd he hne
    · rw [List.concat_eq_append] at he
      rw [he] at ih ⊢
      rw [List.getLast?_concat] at ih
      have hassoc : c ++ '/' :: (j' ++ [x]) = (c ++ '/' :: j') ++ [x] := by simp
      rw [hassoc, List.getLast?_concat]
      exact ih

theorem escapeFold_good : ∀ (cs : List Str) (d : Int), (∀ c ∈ cs, c ≠ ['.', '.']) →
    0 ≤ d → escapeFold cs d = false
  | [], _, _, _ => rfl
  | c :: cs', d, h, hd => by
    unfold escapeFold
    rw [if_neg (h c (by simp))]
    split_ifs with h2
    · exact escapeFold_good cs' d (fun x hx => h x (by simp [hx])) hd
    · exact escapeFold_good cs' (d + 1) (fun x hx => h x (by simp [hx])) (by omega)

theorem splitOnChar_joinSlash : ∀ cs : List Str, GoodComps cs → cs ≠ [] →
    splitOnChar '/' (joinSlash cs) = cs
  | [], _, h => absurd rfl h
  | [c], h, _ => by
    show splitOnChar '/' c = [c]
    exact splitOnChar_no_occ '/' c (h c (by simp)).2.1
  | c :: c1 :: cs', h, _ => by
    show splitOnChar '/' (c ++ '/' :: joinSlash (c1 :: cs')) = c :: c1 :: cs'
    rw [splitOnChar_append '/' c _ (h c (by simp)).2.1]
    rw [splitOnChar_joinSlash (c1 :: cs') (fun x hx => h x (by simp [hx])) (by simp)]

theorem escapes_joinSlash (cs : List Str) (h : GoodComps cs) :
    escapes (joinSlash cs) = false := by
  unfold escapes
  rw [Bool.or_eq_false_iff]
  constructor
  · simp only [decide_eq_false_iff_not]
    exact fun hx => joinSlash_head cs h hx
  · rcases List.eq_nil_or_concat cs with rfl | ⟨cs', x, rfl⟩
    · decide
    · rw [splitOnChar_joinSlash _ h (by simp)]
      exact escapeFold_good _ 0 (fun c hc => (h c hc).2.2) le_rfl

theorem appendComp_joinSlash (cs : List Str) (comp : Str) (h : GoodComps cs) :
    joinSlash (cs ++ [comp]) = appendComp (joinSlash cs) comp := by
  cases cs with
  | nil =>
    show joinSlash [comp] = appendComp [] comp
    unfold appendComp
    simp [joinSlash]
  | cons c0 cs' =>
    rw [joinSlash_concat comp c0 cs']
    unfold appendComp
    rw [if_pos ⟨joinSlash_ne_nil c0 cs' h, joinSlash_getLast _ h⟩]
    simp

theorem dropWhile_append_all {f : Char → Bool} : ∀ {p : Str} (q : Str),
    (∀ x ∈ p, f x = true) → List.dropWhile f (p ++ q) = List.dropWhile f q := by
  intro p
  induction p with
  | nil => intro q _; rfl
  | cons x p' ih =>
    intro q h
    rw [List.cons_append, List.dropWhile_cons_of_pos (h x (by simp))]
    exact ih q (fun y hy => h y (by simp [hy]))

theorem lastSlashKeep_append_no_slash (a b : Str) (h : ∀ ch ∈ b, ch ≠ '/') :
    lastSlashKeep (a ++ b) = lastSlashKeep a := by
  unfold lastSlashKeep
  rw [List.reverse_append]
  rw [dropWhile_append_all a.reverse (fun x hx => by
    simp only [List.mem_reverse] at hx
    simpa using h x hx)]

theorem lastSlashKeep_append_slash (a : Str) :
    lastSlashKeep (a ++ ['/']) = a ++ ['/'] := by
  unfold lastSlashKeep
  rw [List.reverse_append]
  show (List.dropWhile (fun c => !(c == '/')) ('/' :: a.reverse)).reverse = a ++ ['/']
  rw [List.dropWhile_cons_of_neg (by simp)]
  simp

theorem popDotDot_eq (ck : Str) : popDotDot ck =
    if ck = [] then []
    else if lastSlashKeep ck = [] then []
    else if (lastSlashKeep ck).length = 1 then lastSlashKeep ck
    else (lastSlashKeep ck).dropLast := rfl

theorem popDotDot_prefix (ck : Str) : popDotDot ck <+: ck := by
  rw [popDotDot_eq]
  split_ifs with h1 h2 h3
  · exact List.nil_prefix
  · exact List.nil_prefix
  · exact lastSlashKeep_isPrefix ck
  · exact (List.dropLast_prefix _).trans (lastSlashKeep_isPrefix ck)

theorem popDotDot_joinSlash (cs : List Str) (comp : Str)
    (h : GoodComps (cs ++ [comp])) :
    popDotDot (joinSlash (cs ++ [comp])) = joinSlash cs := by
  have hcomp := h comp (by simp)
  cases cs with
  | nil =>
    show popDotDot (joinSlash [comp]) = []
    show popDotDot comp = []
    have hlsk : lastSlashKeep comp = [] := by
      have hc : comp = [] ++ comp := by simp
      rw [hc, lastSlashKeep_append_no_slash [] comp hcomp.2.1]
      rfl
    rw [popDotDot_eq, hlsk]
    simp
  | cons c0 cs' =>
    have hgood : GoodComps (c0 :: cs') := fun x hx => h x (List.mem_append_left [comp] hx)
    rw [joinSlash_concat comp c0 cs']
    have hJne := joinSlash_ne_nil c0 cs' hgood
    have hne : joinSlash (c0 :: cs') ++ '/' :: comp ≠ [] := by simp
    have hlsk : lastSlashKeep (joinSlash (c0 :: cs') ++ '/' :: comp) =
        joinSlash (c0 :: cs') ++ ['/'] := by
      have hc : joinSlash (c0 :: cs') ++ '/' :: comp =
          (joinSlash (c0 :: cs') ++ ['/']) ++ comp := by simp
      rw [hc, lastSlashKeep_append_no_slash _ comp hcomp.2.1,
        lastSlashKeep_append_slash]
    rw [popDotDot_eq, if_neg hne, hlsk]
    rw [if_neg (by simp : joinSlash (c0 :: cs') ++ ['/'] ≠ [])]
    rw [if_neg (by
      simp only [List.length_append, List.length_cons, List.length_nil]
      have := List.length_pos.mpr hJne
      omega)]
    rw [List.dropLast_concat]

theorem goodRest_nil : GoodRest [] :=
  ⟨fun h => absurd h.length_le (by simp), fun h => absurd h.length_le (by simp)⟩

theorem takeWhile_no_slash (rest : Str) :
    ∀ ch ∈ rest.takeWhile (fun c => !(c == '/')), ch ≠ '/' := by
  intro ch hch
  have := List.mem_takeWhile_imp hch
  simpa using this

theorem takeWhile_ne_nil_of_goodRest (rest : Str) (hne : rest ≠ []) (hr : GoodRest rest) :
    rest.takeWhile (fun c => !(c == '/')) ≠ [] := by
  cases rest with
  | nil => exact absurd rfl hne
  | cons c r =>
    have hc : c ≠ '/' := by
      intro hc
      subst hc
      exact hr.1 (single_prefix_iff.mpr ⟨r, rfl⟩)
    rw [List.takeWhile_cons_of_pos (by simpa using hc)]
    simp

theorem rest_decomp (rest : Str)
    (h : (rest.takeWhile (fun c => !(c == '/'))).length < rest.length) :
    ∃ r', rest = rest.takeWhile (fun c => !(c == '/')) ++ '/' :: r' ∧
      rest.drop ((rest.takeWhile (fun c => !(c == '/'))).length + 1) = r' := by
  set t := rest.takeWhile (fun c => !(c == '/')) with ht
  have hsplit : t ++ rest.dropWhile (fun c => !(c == '/')) = rest := by
    rw [ht]
    exact List.takeWhile_append_dropWhile _ _
  rcases dropWhile_head_not (fun c => !(c == '/')) rest with hd | ⟨x, xs, hd, hx⟩
  · exfalso
    have hteq : t = rest := by rw [← hsplit, hd]; simp
    rw [hteq] at h
    omega
  · have hx' : x = '/' := by simpa using hx
    subst hx'
    have hrw : rest = t ++ '/' :: xs := by rw [← hsplit, hd]
    refine ⟨xs, hrw, ?_⟩
    conv_lhs => rw [hrw]
    have hlen : t.length + 1 = (t ++ ['/']).length := by simp
    have hassoc : t ++ '/' :: xs = (t ++ ['/']) ++ xs := by simp
    rw [hassoc, hlen, List.drop_left]

theorem goodRest_tail {rest comp r' : Str} (hr : GoodRest rest)
    (hdec : rest = comp ++ '/' :: r') : GoodRest r' := by
  constructor
  · intro hp
    obtain ⟨r'', rfl⟩ := single_prefix_iff.mp hp
    exact hr.2 ⟨comp, r'', by rw [hdec]; simp⟩
  · intro hi
    exact hr.2 (infix_of_suffix ⟨comp ++ ['/'], by rw [hdec]; simp⟩ hi)

theorem takeWhile_eq_self_of_not_lt (rest : Str)
    (h : ¬ (rest.takeWhile (fun c => !(c == '/'))).length < rest.length) :
    rest.takeWhile (fun c => !(c == '/')) = rest := by
  have hp := List.takeWhile_prefix (l := rest) (fun c => !(c == '/'))
  have hle := hp.length_le
  exact hp.eq_of_length (by omega)

theorem suffix_single_getLast {x : Char} {l : Str} (h : [x] <:+ l) :
    l.getLast? = some x := by
  obtain ⟨u, rfl⟩ := h
  rw [List.getLast?_concat]

theorem trim_target_good {t : Str} (htne : t ≠ []) (hlead : ¬ (['/'] <+: t))
    (hdd : ¬ (['/', '/'] <:+: t)) :
    (if t.getLast? = some '/' then t.dropLast else t) ≠ [] ∧
    ¬ (['/'] <+: (if t.getLast? = some '/' then t.dropLast else t)) ∧
    ¬ (['/', '/'] <:+: (if t.getLast? = some '/' then t.dropLast else t)) ∧
    (if t.getLast? = some '/' then t.dropLast else t).getLast? ≠ some '/' := by
  split_ifs with hg
  · rcases List.eq_nil_or_concat t with rfl | ⟨u, x, rfl⟩
    · exact absurd rfl htne
    · rw [List.concat_eq_append] at *
      rw [List.getLast?_concat] at hg
      have hx : x = '/' := Option.some.inj hg
      subst hx
      rw [List.dropLast_concat]
      have hune : u ≠ [] := by
        rintro rfl
        exact hlead (single_prefix_iff.mpr ⟨[], by simp⟩)
      refine ⟨hune, ?_, ?_, ?_⟩
      · intro hp
        exact hlead (hp.trans (List.prefix_append u ['/']))
      · intro hi
        exact hdd (infix_of_isPrefix (List.prefix_append u ['/']) hi)
      · intro hgl
        rcases List.eq_nil_or_concat u with rfl | ⟨u', y, rfl⟩
        · exact hune rfl
        · rw [List.concat_eq_append] at *
          rw [List.getLast?_concat] at hgl
          have hy : y = '/' := Option.some.inj hgl
          subst hy
          exact hdd ⟨u', [], by simp⟩
  · exact ⟨htne, hlead, hdd, hg⟩

theorem splice_good {t1 r' : Str} (h1 : t1 ≠ []) (h2 : ¬ (['/'] <+: t1))
    (h3 : ¬ (['/', '/'] <:+: t1)) (h4 : t1.getLast? ≠ some '/')
    (hr' : GoodRest r') :
    GoodRest (if r' ≠ [] then t1 ++ ['/'] ++ r' else t1) ∧
    (if r' ≠ [] then t1 ++ ['/'] ++ r' else t1).head? ≠ some '/' := by
  split_ifs with hc
  · have hlead : ¬ (['/'] <+: t1 ++ ['/'] ++ r') := by
      intro hp
      obtain ⟨rr, hrr⟩ := single_prefix_iff.mp hp
      cases t1 with
      | nil => exact h1 rfl
      | cons a b =>
        rw [List.cons_append, List.cons_append] at hrr
        injection hrr with e1 _
        exact h2 (single_prefix_iff.mpr ⟨b, by rw [e1]⟩)
    refine ⟨⟨hlead, ?_⟩, fun hh => hlead (head_slash_of_head? hh)⟩
    intro hi
    rw [List.append_assoc] at hi
    rcases span_two hi with hx | hx | ⟨hxa, hxb⟩
    · exact h3 hx
    · rcases List.infix_cons_iff.mp hx with hp | hx2
      · obtain ⟨rr, hrr⟩ := pair_prefix_iff.mp hp
        injection hrr with _ e2
        exact hr'.1 (single_prefix_iff.mpr ⟨rr, e2⟩)
      · exact hr'.2 hx2
    · exact h4 (suffix_single_getLast hxa)
  · exact ⟨⟨h2, h3⟩, fun hh => h2 (head_slash_of_head? hh)⟩

theorem expand_loop_contained (env : SymlinkEnv) (maxLinks : Nat)
    (henv : ∀ p t, env.readlink p = ReadlinkRes.target t →
      t ≠ [] ∧ ¬ (['/'] <+: t) ∧ ¬ (['/', '/'] <:+: t)) :
    ∀ (fuel : Nat) (cs : List Str) (rest : Str) (nlinks : Nat),
      GoodComps cs → GoodRest rest →
      ∀ co tr, expand_loop env maxLinks fuel (joinSlash cs) rest nlinks = some (co, tr) →
      escapes co = false := by
  intro fuel
  induction fuel with
  | zero =>
    intro cs rest nlinks _ _ co tr h
    simp [expand_loop] at h
  | succ fuel ih =>
    intro cs rest nlinks hcs hr co tr h
    rw [show expand_loop env maxLinks (fuel + 1) (joinSlash cs) rest nlinks =
      (if rest = [] then
        some ((if joinSlash cs = [] then ['.'] else joinSlash cs), [])
      else
        (fun checked' r' =>
          if checked' = [] then expand_loop env maxLinks fuel checked' r' nlinks
          else
            match env.readlink checked' with
            | .notLink => expand_loop env maxLinks fuel checked' r' nlinks
            | .missing => some ((if joinSlash cs = [] then ['.'] else joinSlash cs), rest)
            | .fatal => none
            | .target t =>
              if maxLinks < nlinks + 1 then none
              else
                expand_loop env maxLinks fuel
                  (if (if (r' : Str) ≠ [] then
                        (if t.getLast? = some '/' then t.dropLast else t) ++ ['/'] ++ r'
                      else (if t.getLast? = some '/' then t.dropLast else t)).head? = some '/'
                   then [] else joinSlash cs)
                  (if r' ≠ [] then
                    (if t.getLast? = some '/' then t.dropLast else t) ++ ['/'] ++ r'
                  else (if t.getLast? = some '/' then t.dropLast else t))
                  (nlinks + 1))
          (if (rest.takeWhile (fun c => !(c == '/'))).length < rest.length ∧
              rest.takeWhile (fun c => !(c == '/')) = [] then joinSlash cs ++ ['/']
           else if rest.takeWhile (fun c => !(c == '/')) = ['.', '.'] then
             popDotDot (joinSlash cs)
           else appendComp (joinSlash cs) (rest.takeWhile (fun c => !(c == '/'))))
          (if (rest.takeWhile (fun c => !(c == '/'))).length < rest.length then
            rest.drop ((rest.takeWhile (fun c => !(c == '/'))).length + 1)
          else [])) from rfl] at h
    by_cases hrn : rest = []
    · rw [if_pos hrn] at h
      simp only [Option.some.injEq, Prod.mk.injEq] at h
      obtain ⟨h1, -⟩ := h
      rw [← h1]
      split_ifs with hj
      · decide
      · exact escapes_joinSlash cs hcs
    · rw [if_neg hrn] at h
      simp only [] at h
      have hcompn := takeWhile_ne_nil_of_goodRest rest hrn hr
      have hcompslash := takeWhile_no_slash rest
      -- identify the new component list
      obtain ⟨cs', hcs', heq⟩ :
          ∃ cs', GoodComps cs' ∧
            (if rest.takeWhile (fun c => !(c == '/')) = ['.', '.'] then
              popDotDot (joinSlash cs)
            else appendComp (joinSlash cs) (rest.takeWhile (fun c => !(c == '/')))) =
            joinSlash cs' := by
        by_cases hdd : rest.takeWhile (fun c => !(c == '/')) = ['.', '.']
        · rw [if_pos hdd]
          rcases List.eq_nil_or_concat cs with rfl | ⟨cs0, last, hc⟩
          · exact ⟨[], hcs, rfl⟩
          · rw [List.concat_eq_append] at hc
            subst hc
            refine ⟨cs0, fun c hc => hcs c (List.mem_append_left _ hc), ?_⟩
            exact popDotDot_joinSlash cs0 last hcs
        · rw [if_neg hdd]
          refine ⟨cs ++ [rest.takeWhile (fun c => !(c == '/'))], ?_, ?_⟩
          · intro c hc
            rcases List.mem_append.mp hc with hc | hc
            · exact hcs c hc
            · rw [List.mem_singleton] at hc
              subst hc
              exact ⟨hcompn, hcompslash, hdd⟩
          · exact (appendComp_joinSlash cs _ hcs).symm
      have hchk : (if (rest.takeWhile (fun c => !(c == '/'))).length < rest.length ∧
            rest.takeWhile (fun c => !(c == '/')) = [] then joinSlash cs ++ ['/']
          else if rest.takeWhile (fun c => !(c == '/')) = ['.', '.'] then
            popDotDot (joinSlash cs)
          else appendComp (joinSlash cs) (rest.takeWhile (fun c => !(c == '/')))) =
          joinSlash cs' := by
        rw [if_neg (fun hx => hcompn hx.2)]
        exact heq
      rw [hchk] at h
      have hrg : GoodRest (if (rest.takeWhile (fun c => !(c == '/'))).length <
          rest.length then
          rest.drop ((rest.takeWhile (fun c => !(c == '/'))).length + 1) else []) := by
        split_ifs with hhs
        · obtain ⟨rr, hdec, hdrop⟩ := rest_decomp rest hhs
          rw [hdrop]
          exact goodRest_tail hr hdec
        · exact goodRest_nil
      set r' := if (rest.takeWhile (fun c => !(c == '/'))).length < rest.length then
        rest.drop ((rest.takeWhile (fun c => !(c == '/'))).length + 1) else [] with hr'def
      by_cases hce : joinSlash cs' = []
      · rw [if_pos hce] at h
        exact ih cs' r' nlinks hcs' hrg co tr h
      · rw [if_neg hce] at h
        cases hrl : env.readlink (joinSlash cs') with
        | notLink =>
          rw [hrl] at h
          exact ih cs' r' nlinks hcs' hrg co tr h
        | missing =>
          rw [hrl] at h
          simp only [Option.some.injEq, Prod.mk.injEq] at h
          obtain ⟨h1, -⟩ := h
          rw [← h1]
          split_ifs with hj
          · decide
          · exact escapes_joinSlash cs hcs
        | fatal =>
          rw [hrl] at h
          simp at h
        | target t =>
          obtain ⟨htne, htlead, htdd⟩ := henv _ t hrl
          have htrim := trim_target_good htne htlead htdd
          have hspl := splice_good htrim.1 htrim.2.1 htrim.2.2.1 htrim.2.2.2 hrg
          rw [hrl] at h
          have h' : (if maxLinks < nlinks + 1 then (none : Option (Str × Str))
              else expand_loop env maxLinks fuel
                (if (if r' ≠ [] then
                      (if t.getLast? = some '/' then t.dropLast else t) ++ ['/'] ++ r'
                    else (if t.getLast? = some '/' then t.dropLast else t)).head? = some '/'
                 then [] else joinSlash cs)
                (if r' ≠ [] then
                  (if t.getLast? = some '/' then t.dropLast else t) ++ ['/'] ++ r'
                else (if t.getLast? = some '/' then t.dropLast else t))
                (nlinks + 1)) = some (co, tr) := h
          by_cases hml : maxLinks < nlinks + 1
          · rw [if_pos hml] at h'
            simp at h'
          · rw [if_neg hml, if_neg hspl.2] at h'
            exact ih cs _ (nlinks + 1) hcs hspl.1 co tr h'

/-! ### C1 -/

/-- Counterexample to claim C1 as stated: in `counterEnv` no symlink target
is an absolute path (the lone target is the relative `..//x`), yet
`expand_symlinks` resolves the request `sub/link` to the absolute `/x`,
whose filesystem-canonical form lies outside the document root.  The `..`
pops `checked` to empty, after which the empty component of `//` appends a
bare `/` (the `i == 0` case of line 1781), making `checked` absolute. -/
theorem c1_expand_symlinks_counterexample :
    expand_symlinks counterEnv 32 20 ("sub/link".toList) false false =
      some ("/x".toList, []) ∧
    escapes ("/x".toList) = true := by
  constructor
  · decide
  · decide

/-- Claim C1 (amended): if additionally no symlink target is empty or
contains an empty component (no `//` substring), and the request path
contains no `//`, then the resolved `checked` prefix of `expand_symlinks`
(run with symlink checking on and no tilde mapping) never has a
filesystem-canonical form outside the document root; and `..` only ever
pops, `popDotDot` returning a prefix of its argument (so `checked` is
never reduced below empty). -/
theorem c1_expand_symlinks_contained (env : SymlinkEnv) (maxLinks fuel : Nat)
    (path : Str)
    (henv : ∀ p t, env.readlink p = ReadlinkRes.target t →
      t ≠ [] ∧ ¬ (['/'] <+: t) ∧ ¬ (['/', '/'] <:+: t))
    (hpath : ¬ (['/', '/'] <:+: path))
    (co tr : Str)
    (h : expand_symlinks env maxLinks fuel path false false = some (co, tr)) :
    escapes co = false ∧ ∀ ck, popDotDot ck <+: ck := by
  refine ⟨?_, popDotDot_prefix⟩
  unfold expand_symlinks at h
  rw [if_neg (by simp)] at h
  simp only [if_pos rfl] at h
  have hrg : GoodRest (path.dropWhile (fun c => c == '/')) := by
    constructor
    · intro hp
      obtain ⟨rr, hrr⟩ := single_prefix_iff.mp hp
      rcases dropWhile_head_not (fun c => c == '/') path with hnil | ⟨x, xs, hx, hxf⟩
      · rw [hnil] at hrr
        exact List.noConfusion hrr
      · rw [hx] at hrr
        injection hrr with e1 _
        subst e1
        simp at hxf
    · intro hi
      exact hpath (hi.trans (List.dropWhile_suffix _).isInfix)
  exact expand_loop_contained env maxLinks henv fuel [] _ 0
    (fun c hc => absurd hc (List.not_mem_nil c)) hrg co tr h

/-- Witness for the amended C1: with no symlinks at all, `a/b/../c`
resolves to `a/c`, which does not escape. -/
theorem c1_expand_symlinks_contained_witness :
    escapes ("a/c".toList) = false ∧ ∀ ck, popDotDot ck <+: ck :=
  c1_expand_symlinks_contained noLinkEnv 32 20 ("a/b/../c".toList)
    (fun p t hp => by simp [noLinkEnv] at hp)
    (by decide)
    ("a/c".toList) []
    (by decide)

/-! ### C2 -/

/-- Claim C2: for every input string, the output of `de_dotdot` contains no
`"//"`, no `"/./"` and no `"/../"` substring, and does not begin with
`"./"` or `"../"`. -/
theorem c2_de_dotdot_clean (file : Str) :
    ¬ (['/', '/'] <:+: de_dotdot file) ∧
    ¬ (['/', '.', '/'] <:+: de_dotdot file) ∧
    ¬ (['/', '.', '.', '/'] <:+: de_dotdot file) ∧
    ¬ (['.', '/'] <+: de_dotdot file) ∧
    ¬ (['.', '.', '/'] <+: de_dotdot file) := by
  unfold de_dotdot
  set s0 := collapseSlashes file with hs0
  set s1 := stripLeadSlash s0 with hs1
  set s2 := dropLeadDotSlash s1 with hs2
  set s3 := removeDotSegs s2 with hs3
  set s4 := deDotDotLoop s3 with hs4
  have a0 : ¬ (['/', '/'] <:+: s0) := collapseSlashes_noDD file
  have b0 : ¬ (['/', '/'] <:+: s1) :=
    fun h => a0 (infix_of_suffix (stripLeadSlash_suffix s0) h)
  have b1 : ¬ (['/'] <+: s1) := stripLeadSlash_no_lead s0 a0
  have c0 : ¬ (['/', '/'] <:+: s2) :=
    fun h => b0 (infix_of_suffix (dropLeadDotSlash_suffix s1) h)
  have c1 : ¬ (['/'] <+: s2) := dropLeadDotSlash_no_slash s1 b0 b1
  have c2' : ¬ (['.', '/'] <+: s2) := dropLeadDotSlash_no_lead s1
  have d : ¬ (['/', '/'] <:+: s3) ∧ ¬ (['/'] <+: s3) ∧ ¬ (['.', '/'] <+: s3) :=
    dotSegLoop_pres s2.length s2 c0 c1 c2'
  have d3 : ¬ (['/', '.', '/'] <:+: s3) := removeDotSegs_noDS s2
  have e := ddLoop_post s3.length s3 d.1 d3 d.2.1 d.2.2 le_rfl
  have f : trimTrailDotDot s4 <+: s4 := trimLoop_prefix s4.length s4
  refine ⟨?_, ?_, ?_, ?_, ?_⟩
  · exact fun h => e.1.1 (infix_of_isPrefix f h)
  · exact fun h => e.1.2.1 (infix_of_isPrefix f h)
  · exact fun h => e.2.1 (infix_of_isPrefix f h)
  · exact fun h => e.1.2.2.2 (h.trans f)
  · exact fun h => e.2.2 (h.trans f)

/-! ### C7 -/

/-- Claim C7: `Accept:` occurrences do concatenate with `", "` under the
5000-byte cap, but the `Accept-Encoding:` branch ends in
`strcpy(hc->accepte, cp)` (libhttpd.c:2470) — after dutifully appending
`", "` with `strcat` — so a second occurrence replaces the stored field
instead of being concatenated to it: the code keeps only the last
occurrence. -/
theorem c7_accept_encoding_overwrites :
    acceptAccum ["text/html".toList, "text/plain".toList] = "text/html, text/plain".toList ∧
    accepteAccum ["gzip".toList, "br".toList] = "br".toList ∧
    accepteAccum ["gzip".toList, "br".toList] ≠ "gzip, br".toList := by
  decide

/-! ### C3 -/

/-- Claim C3, the part that fails: a usable single-interval range with no
If-Range is claimed to always produce a 206; but `send_mime` (lines
642-645) additionally requires that the range not cover the whole file
(`last_byte_index != length - 1 || first_byte_index != 0`), so
`Range: bytes=0-` on a 100-byte file — clamped to `0..99` — is answered
with a plain 200 and cleared `got_range`. -/
theorem c3_whole_file_range_counterexample :
    (send_mime wholeFileRangeIn).status = 200 ∧
    (send_mime wholeFileRangeIn).gotRange = false ∧
    (send_mime wholeFileRangeIn).contentRange = none ∧
    ¬(send_mime wholeFileRangeIn).status = 206 := by
  decide

/-- Claim C3 (amended: additionally the range must not cover the entire
file, i.e. not both `first = 0` and `last = total - 1`; such whole-file
ranges, like every other non-usable case, get `got_range` cleared and a
full-content 200): a usable, not-whole-file single-interval range with
matching or absent If-Range is sent as 206 with
`Content-Range: bytes first-last/total` and `Content-Length =
last - first + 1`, `0 ≤ first ≤ last < total`; otherwise `got_range` is
cleared and the full-content response is composed. -/
theorem c3_send_mime_range_election :
    (∀ h : SendMimeIn, h.mimeFlag = true → h.status = 200 → h.gotRange = true →
      0 ≤ h.firstByteIndex → h.firstByteIndex ≤ h.lastByteIndex →
      h.lastByteIndex < h.length →
      (h.rangeIf = -1 ∨ h.rangeIf = h.mtime) →
      ¬(h.firstByteIndex = 0 ∧ h.lastByteIndex = h.length - 1) →
      (send_mime h).status = 206 ∧
      (send_mime h).contentRange = some (h.firstByteIndex, h.lastByteIndex, h.length) ∧
      (send_mime h).contentLength = some (h.lastByteIndex - h.firstByteIndex + 1) ∧
      0 ≤ h.firstByteIndex ∧ h.firstByteIndex ≤ h.lastByteIndex ∧
      h.lastByteIndex < h.length) ∧
    (∀ h : SendMimeIn, h.mimeFlag = true → h.status = 200 →
      ¬(h.gotRange = true ∧ h.lastByteIndex ≥ h.firstByteIndex ∧
        (h.lastByteIndex ≠ h.length - 1 ∨ h.firstByteIndex ≠ 0) ∧
        (h.rangeIf = -1 ∨ h.rangeIf = h.mtime)) →
      (send_mime h).status = 200 ∧ (send_mime h).gotRange = false ∧
      (send_mime h).contentRange = none) := by
  constructor
  · intro h h1 h2 h3 h4 h5 h6 h7 h8
    have hcond : h.status = 200 ∧ h.gotRange = true ∧
        h.lastByteIndex ≥ h.firstByteIndex ∧
        (h.lastByteIndex ≠ h.length - 1 ∨ h.firstByteIndex ≠ 0) ∧
        (h.rangeIf = -1 ∨ h.rangeIf = h.mtime) :=
      ⟨h2, h3, h5, by omega, h7⟩
    simp only [send_mime, h1, if_true, decide_eq_true_eq]
    rw [if_pos hcond, if_pos hcond, if_pos hcond]
    exact ⟨rfl, rfl, rfl, h4, h5, h6⟩
  · intro h h1 h2 hn
    have hcond : ¬(h.status = 200 ∧ h.gotRange = true ∧
        h.lastByteIndex ≥ h.firstByteIndex ∧
        (h.lastByteIndex ≠ h.length - 1 ∨ h.firstByteIndex ≠ 0) ∧
        (h.rangeIf = -1 ∨ h.rangeIf = h.mtime)) := by
      intro hc
      exact hn ⟨hc.2.1, hc.2.2.1, hc.2.2.2.1, hc.2.2.2.2⟩
    simp only [send_mime, h1, if_true, decide_eq_true_eq]
    rw [if_neg hcond, if_neg hcond, if_neg hcond]
    exact ⟨h2, rfl, rfl⟩

/-- Witness for C3's theorem: a `bytes=10-19` range on a 100-byte file is
a 206 with the right headers, and the unsatisfiable `bytes=5-2` clears
`got_range` and composes the full response. -/
theorem c3_send_mime_range_election_witness :
    ((send_mime midRangeIn).status = 206 ∧
      (send_mime midRangeIn).contentRange = some (10, 19, 100) ∧
      (send_mime midRangeIn).contentLength = some 10 ∧
      (0 : Int) ≤ 10 ∧ (10 : Int) ≤ 19 ∧ (19 : Int) < 100) ∧
    ((send_mime emptyRangeIn).status = 200 ∧ (send_mime emptyRangeIn).gotRange = false ∧
      (send_mime emptyRangeIn).contentRange = none) := by
  constructor
  · exact c3_send_mime_range_election.1 midRangeIn rfl rfl rfl (by decide) (by decide)
      (by decide) (by decide) (by decide)
  · exact c3_send_mime_range_election.2 emptyRangeIn rfl rfl (by decide)

/-! ### C10 -/

/-- Claim C10: an ETag is composed exactly when the file is memory-mapped
(`hc->file_address` non-NULL, line 707) and `max_age` is non-negative
(line 720); the HEAD and 304 branches of really_start_request call
`send_mime` before any mapping, with `file_address` still NULL from
httpd_init_conn_content, so their responses never carry an ETag. -/
theorem c10_etag_only_when_mapped :
    (∀ h : SendMimeIn, (send_mime h).etag = true → h.fileAddress = true ∧ h.maxAge ≥ 0) ∧
    (∀ (t : TailIn) (d : Disposition) (out : SendMimeOut),
      request_tail t = some (d, out) → (d = .headOnly ∨ d = .notModified) →
      out.etag = false) := by
  constructor
  · intro h he
    unfold send_mime at he
    by_cases hm : h.mimeFlag = true
    · simp only [hm, if_true] at he
      simp only [Bool.and_eq_true, decide_eq_true_eq] at he
      exact he
    · simp only [Bool.not_eq_true] at hm
      simp only [hm, Bool.false_eq_true, if_false] at he
  · intro t d out hrt hd
    unfold request_tail at hrt
    split_ifs at hrt with hhead h304 hmap
    · simp only [Option.some.injEq, Prod.mk.injEq] at hrt
      obtain ⟨-, hout⟩ := hrt
      subst hout
      simp [send_mime]
    · simp only [Option.some.injEq, Prod.mk.injEq] at hrt
      obtain ⟨-, hout⟩ := hrt
      subst hout
      simp [send_mime]
    · simp only [Option.some.injEq, Prod.mk.injEq] at hrt
      obtain ⟨h1, -⟩ := hrt
      rcases hd with rfl | rfl <;> exact absurd h1 (by decide)

/-- Witness for C10's theorem: the HEAD disposition on a plain request has
no ETag, and a mapped 200 with `max_age = 60` (which does carry one) indeed
has the file mapped and a non-negative `max_age`. -/
theorem c10_etag_only_when_mapped_witness :
    (send_mime headTailBase).etag = false ∧
    (mappedDemoIn.fileAddress = true ∧ mappedDemoIn.maxAge ≥ 0) := by
  constructor
  · exact c10_etag_only_when_mapped.2 headTailIn .headOnly (send_mime headTailBase)
      (by decide) (Or.inl rfl)
  · exact c10_etag_only_when_mapped.1 mappedDemoIn (by decide)

/-! ### C6 -/

/-- Claim C6: the gates do return -1 for any resolved filename containing
the control file's name (a `strstr` test, so in particular for the literal
path of the file), but they do so after only a syslog call — no
`httpd_send_err` runs on this path (contrast every other forbidding path
of the gates), so no 403 page is composed; the claimed 403 response does
not exist. -/
theorem c6_htfile_gate_forbids_without_response :
    (∀ (env : HtGateEnv) (g v : Bool) (hd fn : Str), AUTH_FILE <:+: fn →
      auth_check env g v hd fn = (-1, none)) ∧
    (∀ (env : HtGateEnv) (g v : Bool) (hd fn : Str), ACCESS_FILE <:+: fn →
      access_check env g v hd fn = (-1, none)) := by
  constructor <;> intro env g v hd fn h <;>
    simp [auth_check, access_check, ht_gate, h]

/-- Witness for C6's theorem at the literal control-file paths. -/
theorem c6_htfile_gate_forbids_without_response_witness :
    auth_check trivGateEnv false false [] (".htpasswd".toList) = (-1, none) ∧
    access_check trivGateEnv false false [] (".htaccess".toList) = (-1, none) :=
  ⟨c6_htfile_gate_forbids_without_response.1 trivGateEnv false false [] _ (by decide),
   c6_htfile_gate_forbids_without_response.2 trivGateEnv false false [] _ (by decide)⟩

/-! ### C5 -/

/-- Claim C5, as stated, is false: with two entries for the same user, the
scan of auth_check2 closes the file and decides at the FIRST matching
entry (lines 1356-1388); the last one is never read.  With entries
`u:x` then `u:p` and presented password `p` (under a crypt that returns
the password text), the code rejects, while the claimed last-entry rule
would accept. -/
theorem c5_auth_first_match_counterexample :
    auth_scan cryptEcho ("u".toList) ("p".toList) ["u:x".toList, "u:p".toList] = -1 ∧
    auth_claimed_last cryptEcho ("u".toList) ("p".toList) ["u:x".toList, "u:p".toList] = 1 := by
  decide

/-- Claim C5 (amended: the FIRST matching entry within the file decides;
later entries for the same user are ignored): if no earlier line names the
user and `line` parses to this user with stored field `cryp`, the scan's
verdict is the crypt comparison against `cryp`, whatever comes after. -/
theorem c5_auth_first_match_decides
    (cryptFn : Str → Str → Option Str) (user pass cryp line : Str)
    (pre post : List Str)
    (hpre : pre.all (noUserMatch user) = true)
    (hline : splitFirst ':' line = some (user, cryp)) :
    auth_scan cryptFn user pass (pre ++ line :: post) =
      (match cryptFn pass cryp with
       | none => -1
       | some r => if r = cryp then 1 else -1) := by
  induction pre with
  | nil => simp [auth_scan, hline]
  | cons l ls ih =>
    rw [List.all_cons, Bool.and_eq_true] at hpre
    obtain ⟨hl, hls⟩ := hpre
    cases h : splitFirst ':' l with
    | none =>
      simp only [List.cons_append, auth_scan, h]
      exact ih hls
    | some p =>
      obtain ⟨u2, c2⟩ := p
      have hne : u2 ≠ user := by
        unfold noUserMatch at hl
        rw [h] at hl
        simpa using hl
      simp only [List.cons_append, auth_scan, h, if_neg hne]
      exact ih hls

/-- Witness for C5's theorem: the first `u:` entry (stored field `x`)
decides and rejects password `p` even though a later entry would accept
it. -/
theorem c5_auth_first_match_decides_witness :
    auth_scan cryptEcho ("u".toList) ("p".toList)
      (["v:z".toList] ++ ("u:x".toList) :: ["u:p".toList]) = -1 := by
  rw [c5_auth_first_match_decides cryptEcho ("u".toList) ("p".toList) ("x".toList)
    ("u:x".toList) ["v:z".toList] ["u:p".toList] (by decide) (by decide)]
  decide

/-! ### C4 -/

/-- Claim C4, as stated, is false: a matching deny line does not decide —
its `case 'd'` merely breaks out of the `switch` and the scan continues
(lines 1159-1162) — so with a deny line followed by an allow line both
matching the client, the code allows, while the claimed first-match rule
would deny.  The third conjunct shows the carried `ipv4_mask` at work: a
maskless `allow 10.0.0.9` line reuses the /24 mask the previous line left
behind, so client 10.0.0.5 is allowed. -/
theorem c4_access_first_match_counterexample :
    access_check2 aton4 htonlBE 167772161 ACCESS_MASK_INIT
        ["deny 10.0.0.1".toList, "allow 10.0.0.1".toList] = .allowed ∧
    access_claimed aton4 167772161 ["deny 10.0.0.1".toList, "allow 10.0.0.1".toList]
      = .denied ∧
    access_check2 aton4 htonlBE 167772165 ACCESS_MASK_INIT
        ["deny 10.0.0.0/24".toList, "allow 10.0.0.9".toList] = .allowed := by
  decide

/-- Claim C4 (amended: lines are evaluated in order under the `ipv4_mask`
carried across lines — initialized to all ones once, reused by maskless
lines, and updated in place by `/mask` lines — and a matching deny line
does not terminate the scan; denial only happens at fall-through.  The
decision is made by the first line that is malformed (403), or matches
under the carried mask with a leading 'a'/'A' (allow) or with a leading
character other than a/A/d/D (403); if no line decides, the request is
denied with 403): the scan equals the first-decisive-line reading for
every address-parsing function, byte-order conversion, client, starting
mask and file. -/
theorem c4_access_scan_eq_first_decisive (aton : Str → Option Nat) (htonl : Nat → Nat)
    (client : Nat) (lines : List Str) :
    ∀ mask0, access_check2 aton htonl client mask0 lines
      = access_first_decisive aton htonl client mask0 lines := by
  induction lines with
  | nil =>
    intro mask0
    rfl
  | cons line rest ih =>
    intro mask0
    unfold access_check2 access_first_decisive accessLineDecision
    cases h : parseAccessLine aton htonl mask0 line with
    | none => simp
    | some t =>
      obtain ⟨a, m, c0⟩ := t
      by_cases hm : client &&& m = a &&& m
      · by_cases hd : c0 = 'd' ∨ c0 = 'D'
        · simp only [hm, if_true, hd, if_pos, if_pos hd]
          exact ih m
        · by_cases ha : c0 = 'a' ∨ c0 = 'A'
          · simp [hm, hd, ha]
          · simp [hm, hd, ha]
      · simp only [if_neg hm]
        exact ih m

/-! ### Helper lemmas for C9 -/

theorem char_toNat_inj {a b : Char} (h : a.toNat = b.toNat) : a = b := by
  rw [← Char.ofNat_toNat a, ← Char.ofNat_toNat b, h]

theorem lexCmp_cons (x y : Char) (as bs : Str) :
    lexCmp (x :: as) (y :: bs) =
      if x.toNat < y.toNat then Ordering.lt
      else if y.toNat < x.toNat then Ordering.gt
      else lexCmp as bs := rfl

theorem lexCmp_eq_iff : ∀ a b : Str, lexCmp a b = Ordering.eq ↔ a = b := by
  intro a
  induction a with
  | nil =>
    intro b
    cases b with
    | nil => simp [lexCmp]
    | cons y bs => simp [lexCmp]
  | cons x as ih =>
    intro b
    cases b with
    | nil => simp [lexCmp]
    | cons y bs =>
      rw [lexCmp_cons]
      rcases Nat.lt_trichotomy x.toNat y.toNat with h | h | h
      · rw [if_pos h]
        constructor
        · intro hc
          exact Ordering.noConfusion hc
        · intro hc
          injection hc with h1 h2
          subst h1
          omega
      · have h1 : ¬ x.toNat < y.toNat := by omega
        have h2 : ¬ y.toNat < x.toNat := by omega
        rw [if_neg h1, if_neg h2, ih bs]
        constructor
        · intro hc
          rw [char_toNat_inj h, hc]
        · intro hc
          exact congrArg List.tail hc
      · have h1 : ¬ x.toNat < y.toNat := by omega
        rw [if_neg h1, if_pos h]
        constructor
        · intro hc
          exact Ordering.noConfusion hc
        · intro hc
          injection hc with h3 h4
          subst h3
          omega

theorem lexCmp_swap : ∀ a b : Str, lexCmp b a = (lexCmp a b).swap := by
  intro a
  induction a with
  | nil =>
    intro b
    cases b <;> rfl
  | cons x as ih =>
    intro b
    cases b with
    | nil => rfl
    | cons y bs =>
      simp only [lexCmp_cons]
      rcases Nat.lt_trichotomy x.toNat y.toNat with h | h | h
      · simp [h, Nat.lt_asymm h, Ordering.swap]
      · simp [show ¬ x.toNat < y.toNat from by omega,
          show ¬ y.toNat < x.toNat from by omega, ih bs]
      · simp [h, Nat.lt_asymm h, Ordering.swap]

theorem lexCmp_take_match : ∀ (u v : List Char),
    (match lexCmp u (v.take u.length) with
     | Ordering.lt => Ordering.lt
     | Ordering.gt => Ordering.gt
     | Ordering.eq =>
       if u.length < v.length then Ordering.lt
       else if v.length < u.length then Ordering.gt
       else Ordering.eq) = lexCmp u v := by
  intro u
  induction u with
  | nil =>
    intro v
    cases v with
    | nil => rfl
    | cons y vs => simp [lexCmp]
  | cons x us ih =>
    intro v
    cases v with
    | nil => rfl
    | cons y vs =>
      rw [List.length_cons, List.take_succ_cons]
      rcases Nat.lt_trichotomy x.toNat y.toNat with h | h | h
      · rw [show lexCmp (x :: us) (y :: vs.take us.length) = Ordering.lt from by
          rw [lexCmp_cons, if_pos h]]
        rw [show lexCmp (x :: us) (y :: vs) = Ordering.lt from by
          rw [lexCmp_cons, if_pos h]]
      · have h1 : ¬ x.toNat < y.toNat := by omega
        have h2 : ¬ y.toNat < x.toNat := by omega
        rw [show lexCmp (x :: us) (y :: vs.take us.length) = lexCmp us (vs.take us.length) from by
          rw [lexCmp_cons, if_neg h1, if_neg h2]]
        rw [show lexCmp (x :: us) (y :: vs) = lexCmp us vs from by
          rw [lexCmp_cons, if_neg h1, if_neg h2]]
        rw [List.length_cons]
        simp only [Nat.add_lt_add_iff_right]
        exact ih vs
      · have h1 : ¬ x.toNat < y.toNat := by omega
        rw [show lexCmp (x :: us) (y :: vs.take us.length) = Ordering.gt from by
          rw [lexCmp_cons, if_neg h1, if_pos h]]
        rw [show lexCmp (x :: us) (y :: vs) = Ordering.gt from by
          rw [lexCmp_cons, if_neg h1, if_pos h]]

theorem ext_compare_search_eq_lexCmp (ext e : Str) :
    ext_compare_search ext e = lexCmp (foldL ext) (foldL e) := by
  unfold ext_compare_search strncasecmpM
  rw [List.take_length]
  unfold foldL
  rw [List.map_take]
  rw [show ext.length = (List.map caseFold ext).length from
    (List.length_map ext caseFold).symm]
  rw [show e.length = (List.map caseFold e).length from
    (List.length_map e caseFold).symm]
  exact lexCmp_take_match (List.map caseFold ext) (List.map caseFold e)

theorem mime_match_iff (ext : Str) (e : Str × Str) :
    mime_match ext e = true ↔ lexCmp (foldL ext) (foldL e.1) = Ordering.eq := by
  unfold mime_match
  simp only [Bool.and_eq_true, beq_iff_eq, decide_eq_true_eq]
  unfold strncasecmpM
  rw [List.take_length]
  constructor
  · intro hh
    obtain ⟨hlen, hcmp⟩ := hh
    rw [show e.1.take ext.length = e.1 from by
      rw [hlen]; exact List.take_length e.1] at hcmp
    exact hcmp
  · intro h
    have heq : foldL ext = foldL e.1 := (lexCmp_eq_iff _ _).mp h
    have hlen : ext.length = e.1.length := by
      have h2 := congrArg List.length heq
      unfold foldL at h2
      rw [List.length_map, List.length_map] at h2
      exact h2
    refine ⟨hlen, ?_⟩
    rw [show e.1.take ext.length = e.1 from by
      rw [hlen]; exact List.take_length e.1]
    exact h

theorem c9_match_below (tab : List (Str × Str)) (ext : Str)
    (hsort : List.Pairwise (fun a b => lexCmp (foldL a.1) (foldL b.1) = Ordering.lt) tab)
    (m i : Nat) (hm : m < tab.length) (hi : i < tab.length)
    (hlt : lexCmp (foldL ext) (foldL (tab.get ⟨m, hm⟩).1) = Ordering.lt)
    (hmatch : mime_match ext (tab.get ⟨i, hi⟩) = true) : i < m := by
  have hpw := List.pairwise_iff_get.mp hsort
  have hkey := (lexCmp_eq_iff _ _).mp ((mime_match_iff ext _).mp hmatch)
  rcases Nat.lt_trichotomy i m with h | h | h
  · exact h
  · subst h
    rw [← hkey] at hlt
    rw [(lexCmp_eq_iff (foldL ext) (foldL ext)).mpr rfl] at hlt
    exact Ordering.noConfusion hlt
  · have hrel := hpw ⟨m, hm⟩ ⟨i, hi⟩ h
    rw [← hkey] at hrel
    have hgt : lexCmp (foldL ext) (foldL (tab.get ⟨m, hm⟩).1) = Ordering.gt := by
      rw [lexCmp_swap, hrel]
      rfl
    exact Ordering.noConfusion (hlt.symm.trans hgt)

theorem c9_match_above (tab : List (Str × Str)) (ext : Str)
    (hsort : List.Pairwise (fun a b => lexCmp (foldL a.1) (foldL b.1) = Ordering.lt) tab)
    (m i : Nat) (hm : m < tab.length) (hi : i < tab.length)
    (hgt : lexCmp (foldL ext) (foldL (tab.get ⟨m, hm⟩).1) = Ordering.gt)
    (hmatch : mime_match ext (tab.get ⟨i, hi⟩) = true) : m < i := by
  have hpw := List.pairwise_iff_get.mp hsort
  have hkey := (lexCmp_eq_iff _ _).mp ((mime_match_iff ext _).mp hmatch)
  rcases Nat.lt_trichotomy m i with h | h | h
  · exact h
  · subst h
    rw [← hkey] at hgt
    rw [(lexCmp_eq_iff (foldL ext) (foldL ext)).mpr rfl] at hgt
    exact Ordering.noConfusion hgt
  · have hrel := hpw ⟨i, hi⟩ ⟨m, hm⟩ h
    rw [← hkey] at hrel
    exact Ordering.noConfusion (hrel.symm.trans hgt)

theorem c9_match_unique (tab : List (Str × Str)) (ext : Str)
    (hsort : List.Pairwise (fun a b => lexCmp (foldL a.1) (foldL b.1) = Ordering.lt) tab)
    (i j : Nat) (hi : i < tab.length) (hj : j < tab.length)
    (hmi : mime_match ext (tab.get ⟨i, hi⟩) = true)
    (hmj : mime_match ext (tab.get ⟨j, hj⟩) = true) : i = j := by
  have hpw := List.pairwise_iff_get.mp hsort
  have hki := (lexCmp_eq_iff _ _).mp ((mime_match_iff ext _).mp hmi)
  have hkj := (lexCmp_eq_iff _ _).mp ((mime_match_iff ext _).mp hmj)
  rcases Nat.lt_trichotomy i j with h | h | h
  · have hrel := hpw ⟨i, hi⟩ ⟨j, hj⟩ h
    rw [← hki, ← hkj] at hrel
    rw [(lexCmp_eq_iff (foldL ext) (foldL ext)).mpr rfl] at hrel
    exact Ordering.noConfusion hrel
  · exact h
  · have hrel := hpw ⟨j, hj⟩ ⟨i, hi⟩ h
    rw [← hki, ← hkj] at hrel
    rw [(lexCmp_eq_iff (foldL ext) (foldL ext)).mpr rfl] at hrel
    exact Ordering.noConfusion hrel

theorem find_first_match {α : Type} (p : α → Bool) :
    ∀ (l : List α) (x : α), x ∈ l → p x = true →
      (∀ y ∈ l, p y = true → y = x) → l.find? p = some x
  | [], x, hx, _, _ => absurd hx (List.not_mem_nil x)
  | a :: l, x, hx, hpx, huniq => by
    by_cases hpa : p a = true
    · rw [List.find?_cons_of_pos l hpa]
      exact congrArg some (huniq a (List.mem_cons_self a l) hpa)
    · rw [List.find?_cons_of_neg l hpa]
      rcases List.mem_cons.mp hx with rfl | hx2
      · exact absurd hpx hpa
      · exact find_first_match p l x hx2 hpx
          (fun y hy hpy => huniq y (List.mem_cons_of_mem a hy) hpy)

theorem searchLoop_eq_find (tab : List (Str × Str)) (ext : Str)
    (hsort : List.Pairwise (fun a b => lexCmp (foldL a.1) (foldL b.1) = Ordering.lt) tab) :
    ∀ (fuel : Nat) (top bot : Int),
      top - bot < (fuel : Int) → 0 ≤ bot → top < (tab.length : Int) →
      (∀ (i : Nat) (hi : i < tab.length),
        mime_match ext (tab.get ⟨i, hi⟩) = true → bot ≤ (i : Int) ∧ (i : Int) ≤ top) →
      searchLoop tab ext fuel top bot = tab.find? (mime_match ext) := by
  intro fuel
  induction fuel with
  | zero =>
    intro top bot hfuel hbot htop hinv
    have hnone : searchLoop tab ext 0 top bot = none := rfl
    rw [hnone]
    symm
    rw [List.find?_eq_none]
    intro x hx hpx
    obtain ⟨⟨i, hilt⟩, rfl⟩ := List.mem_iff_get.mp hx
    obtain ⟨h1, h2⟩ := hinv i hilt hpx
    omega
  | succ fuel ih =>
    intro top bot hfuel hbot htop hinv
    by_cases hcond : bot ≤ top
    · have hmid1 : bot ≤ (top + bot) / 2 := by omega
      have hmid2 : (top + bot) / 2 ≤ top := by omega
      have hmidn : ((top + bot) / 2).toNat < tab.length := by omega
      have hmidc : ((((top + bot) / 2).toNat : Nat) : Int) = (top + bot) / 2 := by omega
      have hget : tab[((top + bot) / 2).toNat]? =
          some (tab.get ⟨((top + bot) / 2).toNat, hmidn⟩) := by
        rw [List.getElem?_eq_getElem hmidn]
        rfl
      have hstep : searchLoop tab ext (fuel + 1) top bot =
          match ext_compare_search ext (tab.get ⟨((top + bot) / 2).toNat, hmidn⟩).1 with
          | Ordering.lt => searchLoop tab ext fuel ((top + bot) / 2 - 1) bot
          | Ordering.gt => searchLoop tab ext fuel top ((top + bot) / 2 + 1)
          | Ordering.eq => some (tab.get ⟨((top + bot) / 2).toNat, hmidn⟩) := by
        conv_lhs => unfold searchLoop
        rw [if_pos hcond, hget]
      rw [hstep]
      cases hc : ext_compare_search ext (tab.get ⟨((top + bot) / 2).toNat, hmidn⟩).1 with
      | lt =>
        have hlex : lexCmp (foldL ext)
            (foldL (tab.get ⟨((top + bot) / 2).toNat, hmidn⟩).1) = Ordering.lt := by
          rw [← ext_compare_search_eq_lexCmp]
          exact hc
        apply ih ((top + bot) / 2 - 1) bot (by omega) hbot (by omega)
        intro i hilt hmatch
        obtain ⟨h1, h2⟩ := hinv i hilt hmatch
        have hbelow := c9_match_below tab ext hsort _ i hmidn hilt hlex hmatch
        omega
      | gt =>
        have hlex : lexCmp (foldL ext)
            (foldL (tab.get ⟨((top + bot) / 2).toNat, hmidn⟩).1) = Ordering.gt := by
          rw [← ext_compare_search_eq_lexCmp]
          exact hc
        apply ih top ((top + bot) / 2 + 1) (by omega) (by omega) htop
        intro i hilt hmatch
        obtain ⟨h1, h2⟩ := hinv i hilt hmatch
        have habove := c9_match_above tab ext hsort _ i hmidn hilt hlex hmatch
        omega
      | eq =>
        have hlex : lexCmp (foldL ext)
            (foldL (tab.get ⟨((top + bot) / 2).toNat, hmidn⟩).1) = Ordering.eq := by
          rw [← ext_compare_search_eq_lexCmp]
          exact hc
        have hmm : mime_match ext (tab.get ⟨((top + bot) / 2).toNat, hmidn⟩) = true :=
          (mime_match_iff ext _).mpr hlex
        refine (find_first_match (mime_match ext) tab _
          (List.get_mem tab _ hmidn) hmm ?_).symm
        intro y hy hpy
        obtain ⟨⟨j, hjlt⟩, rfl⟩ := List.mem_iff_get.mp hy
        have huq := c9_match_unique tab ext hsort j ((top + bot) / 2).toNat hjlt hmidn
          hpy hmm
        cases huq
        rfl
    · have hnone : searchLoop tab ext (fuel + 1) top bot = none := by
        conv_lhs => unfold searchLoop
        rw [if_neg hcond]
      rw [hnone]
      symm
      rw [List.find?_eq_none]
      intro x hx hpx
      obtain ⟨⟨i, hilt⟩, rfl⟩ := List.mem_iff_get.mp hx
      obtain ⟨h1, h2⟩ := hinv i hilt hpx
      omega

/-! ### C9 -/

/-- Claim C9: for every extension string and every type table strictly
sorted in the case-folded byte order (as `init_mime`'s qsort arranges for
the shipped all-lowercase extension tables; the table contents under
`mime_types.h` are not part of the sources, so the sortedness is a
hypothesis), the binary search of `figure_mime` — tie-breaking on
extension length, an exact length match winning — returns the same entry
as a linear scan of the same table using case-insensitive comparison with
exact length match. -/
theorem c9_figure_mime_binary_search_eq_scan (tab : List (Str × Str)) (ext : Str)
    (hsort : List.Pairwise (fun a b => lexCmp (foldL a.1) (foldL b.1) = Ordering.lt) tab) :
    figure_mime_search tab ext = mime_scan tab ext := by
  unfold figure_mime_search mime_scan
  refine searchLoop_eq_find tab ext hsort (tab.length + 1) ((tab.length : Int) - 1) 0
    ?_ ?_ ?_ ?_
  · omega
  · omega
  · omega
  · intro i hi hmatch
    omega

/-- Witness for C9: on a concrete sorted three-entry table the binary
search and the scan agree, both finding `text/html` for the extension
`HTML`. -/
theorem c9_figure_mime_binary_search_eq_scan_witness :
    figure_mime_search demoTypTab ("HTML".toList) = mime_scan demoTypTab ("HTML".toList) ∧
    mime_scan demoTypTab ("HTML".toList) = some ("html".toList, "text/html".toList) :=
  ⟨c9_figure_mime_binary_search_eq_scan demoTypTab ("HTML".toList) (by decide),
   by decide⟩

end Merecat
